import Mathlib

/-!
Pipeline (`MPI/Synch_p2p/p2p.c`): a shallow embedding.

The program runs a pipelined stencil on an `m × n` grid whose first dimension
is distributed over `Num_procs` MPI ranks.  The embedding follows `main`:

* the slice-boundary loop (`start`, `end`),
* the per-rank buffer `vector` addressed through the `ARRAY` index map,
* the clear and boundary-initialisation loops,
* the column sweep with its receive from the left and send to the right,
* the corner copy that creates the dependency between iterations.

Grid values are `double`s in the source.  Every value the program stores is an
integer obtained from `int` casts, sums and differences, so values are modelled
as `Int` (exact below 2^53).  The ranks are sequential programs that interact
only through receives naming their source and tag, so the values computed do
not depend on the interleaving; the embedding runs, in each iteration, the
sweeps of rank 0, 1, ..., `Num_procs-1` one after the other over FIFO channels
and then the corner copy.  A receive that finds no matching message in its
channel yields `none`.
-/

namespace P2P

/-- The `for (k=0; k<cnt; k++) body` loop. -/
def forLoop {σ : Type} (body : Nat → σ → σ) : Nat → σ → σ
  | 0, s => s
  | k + 1, s => body k (forLoop body k s)

/-- The `for (k=0; k<cnt; k++) body` loop whose body may block. -/
def forLoopM {σ : Type} (body : Nat → σ → Option σ) : Nat → σ → Option σ
  | 0, s => some s
  | k + 1, s => (forLoopM body k s).bind (body k)

/-! ## Slice boundaries (lines 163-173) -/

/-- The arrays `start` and `end` of grid slices. -/
structure Slices where
  start : Nat → Int
  end_ : Nat → Int

/-- Body of the slice loop for one `ID`. -/
def sliceBody (m Num_procs : Nat) (ID : Nat) (s : Slices) : Slices :=
  let segment_size : Int := ((m / Num_procs : Nat) : Int)
  let segment_size : Int := if ID < m % Num_procs then segment_size + 1 else segment_size
  let start := if ID > 0 then Function.update s.start ID (s.end_ (ID - 1) + 1) else s.start
  { start := start
    end_ := Function.update s.end_ ID (start ID + segment_size - 1) }

/-- The slice loop: `start[0] = 0; for (ID=0; ID<Num_procs; ID++) ...`. -/
def slices (m Num_procs : Nat) : Slices :=
  forLoop (sliceBody m Num_procs) Num_procs
    { start := Function.update (fun _ => 0) 0 0, end_ := fun _ => 0 }

/-- The value `segment_size = end[my_ID] - start[my_ID] + 1` of the calling process. -/
def segment_size (m Num_procs my_ID : Nat) : Int :=
  (slices m Num_procs).end_ my_ID - (slices m Num_procs).start my_ID + 1

/-! ## The buffer and the `ARRAY` index map (line 70) -/

/-- The index `i+1+(j)*(segment_size+1)` of `ARRAY(i,j)` in `vector`. -/
def ARRAY (segment_size i j : Int) : Int := i + 1 + j * (segment_size + 1)

/-- The buffer `vector` of one rank: the value stored at each offset. -/
structure Buffer where
  cell : Int → Int

/-- Read `ARRAY(i,j)`. -/
def rd (vector : Buffer) (segment_size i j : Int) : Int :=
  vector.cell (ARRAY segment_size i j)

/-- Write `ARRAY(i,j) = x`. -/
def wr (vector : Buffer) (segment_size i j x : Int) : Buffer :=
  ⟨Function.update vector.cell (ARRAY segment_size i j) x⟩

/-! ## Initialisation (lines 194-205) -/

/-- Clear the array: `for j for (i=start-1; i<=end; i++) ARRAY(i-start,j) = 0.0`. -/
def clear (n : Nat) (ss start end_ : Int) (vector : Buffer) : Buffer :=
  forLoop (fun j v =>
    forLoop (fun k v => wr v ss ((start - 1 + k) - start) j 0)
      (end_ + 1 - (start - 1)).toNat v) n vector

/-- Set boundary values: row 0 of rank 0 and column 0 of every rank. -/
def setBoundary (n : Nat) (my_ID : Nat) (ss start end_ : Int) (vector : Buffer) : Buffer :=
  let v := if my_ID = 0 then forLoop (fun j v => wr v ss 0 j (j : Int)) n vector else vector
  forLoop (fun k v => wr v ss ((start - 1 + k) - start) 0 (start - 1 + k))
    (end_ + 1 - (start - 1)).toNat v

/-- The buffer of rank `my_ID` when the iteration loop starts. -/
def initVector (m n Num_procs my_ID : Nat) : Buffer :=
  let s := slices m Num_procs
  let ss := segment_size m Num_procs my_ID
  setBoundary n my_ID ss (s.start my_ID) (s.end_ my_ID)
    (clear n ss (s.start my_ID) (s.end_ my_ID) ⟨fun _ => 0⟩)

/-- The local `start[my_ID]` after line 203-204. -/
def localStart (my_ID : Nat) : Int := if my_ID = 0 then 1 else 0

/-- The local `end[my_ID] = segment_size-1` after line 205. -/
def localEnd (m Num_procs my_ID : Nat) : Int := segment_size m Num_procs my_ID - 1

/-! ## Messages -/

/-- A posted communication call, as seen by the rank that posts it. -/
inductive Event where
  | send (dest : Nat) (tag : Nat)
  | recv (source : Nat) (tag : Nat)

/-- The state of all ranks: one buffer per rank, one FIFO queue of
`(tag, value)` messages per ordered pair `(source, dest)`, and the calls each
rank has posted so far, oldest first. -/
structure World where
  vector : Nat → Buffer
  chan : Nat → Nat → List (Nat × Int)
  trace : Nat → List Event

/-- Take the first message carrying `tag` out of a queue. -/
def takeTag (tag : Nat) : List (Nat × Int) → Option (Int × List (Nat × Int))
  | [] => none
  | (t, x) :: q =>
    if t = tag then some (x, q)
    else (takeTag tag q).map (fun r => (r.1, (t, x) :: r.2))

/-- The call `MPI_Send(&val, 1, MPI_DOUBLE, dest, tag, MPI_COMM_WORLD)` on rank `me`. -/
def MPI_Send (w : World) (me dest tag : Nat) (val : Int) : World :=
  { w with
    chan := Function.update w.chan me
      (Function.update (w.chan me) dest (w.chan me dest ++ [(tag, val)]))
    trace := Function.update w.trace me (w.trace me ++ [Event.send dest tag]) }

/-- The call `MPI_Recv(&x, 1, MPI_DOUBLE, source, tag, MPI_COMM_WORLD, &status)` on
rank `me`: the value received and the world after it, `none` when no message
with this tag is in the queue. -/
def MPI_Recv (w : World) (me source tag : Nat) : Option (Int × World) :=
  (takeTag tag (w.chan source me)).map (fun r =>
    (r.1, { w with
      chan := Function.update w.chan source (Function.update (w.chan source) me r.2)
      trace := Function.update w.trace me (w.trace me ++ [Event.recv source tag]) }))

/-- Replace the buffer of one rank. -/
def World.setVector (w : World) (me : Nat) (v : Buffer) : World :=
  { w with vector := Function.update w.vector me v }

/-! ## The sweep (lines 215-233) -/

/-- The row loop `for (i=start; i<=end; i++) ARRAY(i,j) = ARRAY(i-1,j) + ARRAY(i,j-1)
- ARRAY(i-1,j-1)`. -/
def rowLoop (ss start end_ : Int) (j : Int) (vector : Buffer) : Buffer :=
  forLoop (fun k v =>
    let i := start + k
    wr v ss i j (rd v ss (i - 1) j + rd v ss i (j - 1) - rd v ss (i - 1) (j - 1)))
    (end_ + 1 - start).toNat vector

/-- One pass of the body of the column loop on rank `my_ID`. -/
def sweepColumn (m Num_procs my_ID : Nat) (j : Nat) (w : World) : Option World :=
  let ss := segment_size m Num_procs my_ID
  let start := localStart my_ID
  let end_ := localEnd m Num_procs my_ID
  (if my_ID > 0 then
    (MPI_Recv w my_ID (my_ID - 1) j).map (fun r =>
      r.2.setVector my_ID (wr (r.2.vector my_ID) ss (start - 1) j r.1))
   else some w).map (fun w1 =>
    let w2 := w1.setVector my_ID (rowLoop ss start end_ j (w1.vector my_ID))
    if my_ID ≠ Num_procs - 1 then
      MPI_Send w2 my_ID (my_ID + 1) j (rd (w2.vector my_ID) ss end_ j)
    else w2)

/-- The column loop `for (j=1; j<n; j++)` on rank `my_ID`. -/
def sweep (m n Num_procs my_ID : Nat) (w : World) : Option World :=
  forLoopM (fun k w => sweepColumn m Num_procs my_ID (k + 1) w) (n - 1) w

/-! ## The corner copy (lines 244-254) -/

/-- Copy the top right corner value to the bottom left corner. -/
def cornerCopy (m n Num_procs : Nat) (w : World) : Option World :=
  let root := Num_procs - 1
  if Num_procs > 1 then
    let corner_val := - rd (w.vector root) (segment_size m Num_procs root)
      (localEnd m Num_procs root) ((n : Int) - 1)
    let w1 := MPI_Send w root 0 888 corner_val
    (MPI_Recv w1 0 root 888).map (fun r =>
      r.2.setVector 0 (wr (r.2.vector 0) (segment_size m Num_procs 0) 0 0 r.1))
  else
    some (w.setVector 0 (wr (w.vector 0) (segment_size m Num_procs 0) 0 0
      (- rd (w.vector 0) (segment_size m Num_procs 0) (localEnd m Num_procs 0)
        ((n : Int) - 1))))

/-! ## The iteration loop (lines 207-256) -/

/-- The sweeps of all ranks of one iteration, in rank order. -/
def sweepAll (m n Num_procs : Nat) (w : World) : Option World :=
  forLoopM (fun my_ID w => sweep m n Num_procs my_ID w) Num_procs w

/-- One pass of the iteration loop. -/
def iteration (m n Num_procs : Nat) (w : World) : Option World :=
  (sweepAll m n Num_procs w).bind (cornerCopy m n Num_procs)

/-- The world when the iteration loop starts. -/
def initWorld (m n Num_procs : Nat) : World :=
  { vector := fun my_ID => initVector m n Num_procs my_ID
    chan := fun _ _ => []
    trace := fun _ => [] }

/-- The world after `iter` passes of the iteration loop. -/
def run (m n Num_procs : Nat) (iter : Nat) : Option World :=
  forLoopM (fun _ w => iteration m n Num_procs w) iter (initWorld m n Num_procs)

/-- The cell `ARRAY(end[my_ID],n-1)` of the timing rank `root = Num_procs-1`. -/
def corner (m n Num_procs : Nat) (w : World) : Int :=
  rd (w.vector (Num_procs - 1)) (segment_size m Num_procs (Num_procs - 1))
    (localEnd m Num_procs (Num_procs - 1)) ((n : Int) - 1)

/-- The verification value `iterations*(m+n-2)` (line 259). -/
def expected (m n iterations : Nat) : Int :=
  (iterations : Int) * ((m : Int) + (n : Int) - 2)

/-! ## Input tests and start of `main` (lines 109-141) -/

/-- The input tests of the root rank.  `argc` is the argument count and `arg k`
the value `atoi` returns for `argv[k]`; the result is the `error` flag. -/
def inputTests (argc : Int) (arg : Nat → Int) (Num_procs : Nat) : Int :=
  if argc ≠ 4 then 1
  else
    let iterations := arg 1
    if iterations < 1 then 1
    else
      let m := arg 2
      let n := arg 3
      if m < 1 ∨ n < 1 then 1
      else if m < (Num_procs : Int) then 1
      else 0

/-- The `error` flag of rank `my_ID` at the first `bail_out`: the flag starts at 0
and only the root rank `Num_procs-1` runs the tests. -/
def inputError (argc : Int) (arg : Nat → Int) (Num_procs my_ID : Nat) : Int :=
  if my_ID = Num_procs - 1 then inputTests argc arg Num_procs else 0

/-- Modelled from the spec: `bail_out`, the collective abort helper of the
benchmark library, which is not among the sources.  An error found on a single
rank becomes a collective decision: the result is `true`, and every rank
terminates with a non-zero status, when the flag of some rank is non-zero. -/
def bail_out (Num_procs : Nat) (error : Nat → Int) : Bool :=
  (List.range Num_procs).any (fun r => error r != 0)

/-- How the ranks leave the part of `main` that ends with the iteration loop. -/
inductive Exit where
  | failure
  | blocked
  | loopDone (w : World)

/-- The part of `main` from the input tests to the end of the iteration loop
(lines 109-256).  The tests on the buffer length and on the allocation are taken
to pass. -/
def mainLoop (argc : Int) (arg : Nat → Int) (Num_procs : Nat) : Exit :=
  if bail_out Num_procs (inputError argc arg Num_procs) then Exit.failure
  else
    match run (arg 2).toNat (arg 3).toNat Num_procs (arg 1).toNat with
    | none => Exit.blocked
    | some w => Exit.loopDone w

/-! ## Auxiliary definitions used to state the results -/

/-- Rows owned by ranks `0..r-1`: `r*(m/Num_procs) + min r (m%Num_procs)`. -/
def offset (m Num_procs : Nat) (r : Nat) : Int :=
  (r : Int) * ((m / Num_procs : Nat) : Int) + ((min r (m % Num_procs) : Nat) : Int)

/-- Number of rows of rank `r` according to the slice loop. -/
def rows (m Num_procs : Nat) (r : Nat) : Int :=
  if r < m % Num_procs then ((m / Num_procs : Nat) : Int) + 1 else ((m / Num_procs : Nat) : Int)

/-- The messages tagged `lo, lo+1, ..., lo+cnt-1` carrying `x tag`. -/
def msgs (x : Nat → Int) : Nat → Nat → List (Nat × Int)
  | _, 0 => []
  | lo, cnt + 1 => (lo, x lo) :: msgs x (lo + 1) cnt

/-- The calls rank `r` posts while sweeping columns `lo, ..., lo+cnt-1`. -/
def sweepEvents (Num_procs r : Nat) : Nat → Nat → List Event
  | _, 0 => []
  | lo, cnt + 1 =>
    ((if 0 < r then [Event.recv (r - 1) lo] else []) ++
      (if r ≠ Num_procs - 1 then [Event.send (r + 1) lo] else [])) ++
    sweepEvents Num_procs r (lo + 1) cnt

/-- The value in column `j` of the row just above the first swept row of rank
`r`: the message `x j` from the left neighbour, or on rank 0 the cell the buffer
already holds there. -/
def above (w : World) (m Num_procs r : Nat) (x : Nat → Int) (j : Nat) : Int :=
  if 0 < r then x j
  else rd (w.vector r) (segment_size m Num_procs r) (localStart r - 1) j

/-- The value the sweep of rank `r` leaves in row `i` of column `j ≥ 1`. -/
def swept (w : World) (m Num_procs r : Nat) (x : Nat → Int) (i : Int) (j : Nat) : Int :=
  above w m Num_procs r x j + rd (w.vector r) (segment_size m Num_procs r) i 0
    - rd (w.vector r) (segment_size m Num_procs r) (localStart r - 1) 0

/-- The value of the grid at global row `g ≥ 0` and column `j ≥ 1` after a sweep:
row 0 holds the column index, every other row `g + j - d`. -/
def gridVal (d : Int) (g : Int) (j : Nat) : Int :=
  if g = 0 then (j : Int) else g + (j : Int) - d

/-- The shift `d` of the interior cells when the origin cell holds `c0`: the
origin cell is read by the sweep only if rank 0 owns a second row. -/
def shift (m Num_procs : Nat) (c0 : Int) : Int := if Num_procs < m then c0 else 0

/-- The state at the top of a pass of the iteration loop, with origin cell `c0`:
all queues are empty, column 0 holds the global row index except for the origin
cell `ARRAY(0,0)` of rank 0, which holds `c0`, and row 0 of rank 0 holds the
column index. -/
def Ready (m n Num_procs : Nat) (c0 : Int) (w : World) : Prop :=
  (∀ a b, w.chan a b = []) ∧
  (∀ r, r < Num_procs → ∀ i : Int, -1 ≤ i → i < segment_size m Num_procs r →
    rd (w.vector r) (segment_size m Num_procs r) i 0
      = if r = 0 ∧ i = 0 then c0 else offset m Num_procs r + i) ∧
  (∀ j : Nat, 1 ≤ j → j < n → rd (w.vector 0) (segment_size m Num_procs 0) 0 j = j)

/-- The calls rank `r` posts in the corner copy. -/
def cornerEvents (Num_procs r : Nat) : List Event :=
  if Num_procs > 1 then
    (if r = Num_procs - 1 then [Event.send 0 888] else []) ++
      (if r = 0 then [Event.recv (Num_procs - 1) 888] else [])
  else []

/-- The calls rank `r` posts in one pass of the iteration loop. -/
def iterEvents (n Num_procs r : Nat) : List Event :=
  (if r < Num_procs then sweepEvents Num_procs r 1 (n - 1) else []) ++
    cornerEvents Num_procs r

/-- The calls rank `r` posts in `k` passes of the iteration loop. -/
def runEvents (n Num_procs r : Nat) : Nat → List Event
  | 0 => []
  | k + 1 => runEvents n Num_procs r k ++ iterEvents n Num_procs r

/-- The corner cell after the sweeps of a pass that started with origin cell `c0`. -/
def cornerAfterSweep (m n Num_procs : Nat) (c0 : Int) : Int :=
  if n = 1 then (if m = 1 then c0 else (m : Int) - 1)
  else (m : Int) + (n : Int) - 2 - shift m Num_procs c0

/-- How many multiples of `m+n-2` the corner cell holds after `k` passes: one per
pass when the corner is an interior cell fed by the origin cell (`Num_procs < m`
and `2 ≤ n`), otherwise one after the first pass and no more. -/
def mult (m n Num_procs k : Nat) : Nat :=
  if Num_procs < m ∧ 2 ≤ n then k else min k 1

/-- The tags of the sends to `dest` in a list of calls, in order. -/
def sendTags (dest : Nat) : List Event → List Nat
  | [] => []
  | Event.send d t :: tr => if d = dest then t :: sendTags dest tr else sendTags dest tr
  | Event.recv _ _ :: tr => sendTags dest tr

/-- The tags of the receives from `source` in a list of calls, in order. -/
def recvTags (source : Nat) : List Event → List Nat
  | [] => []
  | Event.send _ _ :: tr => recvTags source tr
  | Event.recv s t :: tr => if s = source then t :: recvTags source tr else recvTags source tr

/-- The tags `lo, lo+1, ..., lo+cnt-1`. -/
def columnTags : Nat → Nat → List Nat
  | _, 0 => []
  | lo, cnt + 1 => lo :: columnTags (lo + 1) cnt

/-- The list `l` repeated `k` times. -/
def rounds (l : List Nat) : Nat → List Nat
  | 0 => []
  | k + 1 => rounds l k ++ l

/-! ## Buffer length and the cells the code touches (lines 172-184) -/

/-- The buffer length `total_length = ((end-start+1)+1)*n` of rank `my_ID`, as an
exact product. -/
def total_length (m n Num_procs my_ID : Nat) : Int :=
  (((slices m Num_procs).end_ my_ID - (slices m Num_procs).start my_ID + 1) + 1) * (n : Int)

/-- Collect `f 0 ++ f 1 ++ ... ++ f (cnt-1)` with the loop `for (k=0; k<cnt; k++)`. -/
def collect {α : Type} (f : Nat → List α) (cnt : Nat) : List α :=
  forLoop (fun k acc => acc ++ f k) cnt []

/-- The `(i,j)` arguments of `ARRAY` in the clear loop (line 195-197). -/
def clearAccesses (n : Nat) (start end_ : Int) : List (Int × Int) :=
  collect (fun j =>
    collect (fun k => [((start - 1 + k) - start, (j : Int))])
      (end_ + 1 - (start - 1)).toNat) n

/-- The `(i,j)` arguments of `ARRAY` in the boundary loops (lines 199-200). -/
def boundaryAccesses (n my_ID : Nat) (start end_ : Int) : List (Int × Int) :=
  (if my_ID = 0 then collect (fun j => [((0 : Int), (j : Int))]) n else []) ++
    collect (fun k => [((start - 1 + k) - start, (0 : Int))]) (end_ + 1 - (start - 1)).toNat

/-- The `(i,j)` arguments of `ARRAY` in one sweep of rank `my_ID` (lines 215-233):
the receive buffer, the four cells of every stencil evaluation, the sent cell. -/
def sweepAccesses (m n Num_procs my_ID : Nat) : List (Int × Int) :=
  collect (fun c =>
    let j : Int := ((c + 1 : Nat) : Int)
    (if my_ID > 0 then [(localStart my_ID - 1, j)] else []) ++
    collect (fun k =>
      let i := localStart my_ID + k
      [(i, j), (i - 1, j), (i, j - 1), (i - 1, j - 1)])
      (localEnd m Num_procs my_ID + 1 - localStart my_ID).toNat ++
    (if my_ID ≠ Num_procs - 1 then [(localEnd m Num_procs my_ID, j)] else [])) (n - 1)

/-- The cells `(i,j)` one sweep of rank `my_ID` assigns (line 225), in the order
in which the column loop and the row loop reach them. -/
def sweepOrder (m n Num_procs my_ID : Nat) : List (Int × Int) :=
  collect (fun c =>
    let j : Int := ((c + 1 : Nat) : Int)
    collect (fun k =>
      let i := localStart my_ID + k
      [(i, j)])
      (localEnd m Num_procs my_ID + 1 - localStart my_ID).toNat) (n - 1)

/-- The `(i,j)` arguments of `ARRAY` on rank `my_ID` in the corner copy (lines 245-254). -/
def cornerAccesses (m n Num_procs my_ID : Nat) : List (Int × Int) :=
  if Num_procs > 1 then
    (if my_ID = Num_procs - 1 then [(localEnd m Num_procs my_ID, (n : Int) - 1)] else []) ++
      (if my_ID = 0 then [((0 : Int), (0 : Int))] else [])
  else [((0 : Int), (0 : Int)), (localEnd m Num_procs my_ID, (n : Int) - 1)]

/-- The `(i,j)` arguments of `ARRAY` on rank `my_ID` in the verification (lines 260-263). -/
def verifyAccesses (m n Num_procs my_ID : Nat) : List (Int × Int) :=
  if my_ID = Num_procs - 1 then [(localEnd m Num_procs my_ID, (n : Int) - 1)] else []

/-- All `(i,j)` arguments of `ARRAY` on rank `my_ID`. -/
def accesses (m n Num_procs my_ID : Nat) : List (Int × Int) :=
  clearAccesses n ((slices m Num_procs).start my_ID) ((slices m Num_procs).end_ my_ID) ++
  boundaryAccesses n my_ID ((slices m Num_procs).start my_ID) ((slices m Num_procs).end_ my_ID) ++
  sweepAccesses m n Num_procs my_ID ++ cornerAccesses m n Num_procs my_ID ++
  verifyAccesses m n Num_procs my_ID

/-- The value of a 32-bit `int` holding `x` modulo 2^32 (two's complement). -/
def wrap32 (x : Int) : Int := (x + 2147483648) % 4294967296 - 2147483648

/-- The variable `segment_size` of line 173 in 32-bit `int` arithmetic. -/
def segment_size32 (m Num_procs my_ID : Nat) : Int :=
  wrap32 (wrap32 ((slices m Num_procs).end_ my_ID - (slices m Num_procs).start my_ID) + 1)

/-- The variable `total_length` of line 176 in 32-bit `int` arithmetic. -/
def total_length32 (m n Num_procs my_ID : Nat) : Int :=
  wrap32 (wrap32 (wrap32 (wrap32
    ((slices m Num_procs).end_ my_ID - (slices m Num_procs).start my_ID) + 1) + 1) * (n : Int))

/-- The test `total_length/(segment_size+1) != n` of the root rank (line 179), with
the truncating division of C: `true` when the grid is reported as too large. -/
def tooLarge (m n Num_procs : Nat) : Bool :=
  decide (Int.tdiv (total_length32 m n Num_procs (Num_procs - 1))
    (wrap32 (segment_size32 m Num_procs (Num_procs - 1) + 1)) ≠ (n : Int))

/-! ## Verification and timing (lines 235-242, 258-266, 277) -/

/-- Modelled from the spec: the macro `MIN` of the benchmark header, which is not
among the sources; the smaller of two values. -/
def MIN {α : Type} [LinearOrder α] (x y : α) : α := if x < y then x else y

end P2P

namespace Transpose

/-!
Transpose (`SERIAL/Transpose/transpose.c`): a shallow embedding.

The matrices `A` and `B` are buffers indexed by `i + order*j`.  The loops that
copy `A` into `B` do not compute with the elements, so they are embedded for an
arbitrary element type; the fill and the test use doubles, which are exact
fractions here.  The loops are embedded with exact index arithmetic; `main` calls
them only when the index products fit the 32-bit `int`.
-/

/-- A buffer: the value stored at each index. -/
structure Mat (α : Type) where
  cell : Nat → α

/-- The loop `for (i=i0; i<hi; i+=step) body`, stopped after `fuel` passes. -/
def forStep {σ : Type} (body : Nat → σ → σ) (hi step : Nat) : Nat → Nat → σ → σ
  | 0, _, s => s
  | fuel + 1, i, s =>
    if i < hi then forStep body hi step fuel (i + step) (body i s) else s

/-- The untiled transpose (lines 166-170): `B[i+order*j] = A[j+order*i]`. -/
def untiled {α : Type} (order : Nat) (A B : Mat α) : Mat α :=
  P2P.forLoop (fun i B =>
    P2P.forLoop (fun j B =>
      ⟨Function.update B.cell (i + order * j) (A.cell (j + order * i))⟩) order B) order B

/-- The tiled transpose (lines 155-163): `B[it+order*jt] = A[jt+order*it]` for `it`
and `jt` running over tiles of side `tile_size`. -/
def tiled {α : Type} (order tile_size : Nat) (A B : Mat α) : Mat α :=
  forStep (fun i B =>
    forStep (fun j B =>
      P2P.forLoop (fun a B =>
        let it := i + a
        P2P.forLoop (fun b B =>
          let jt := j + b
          ⟨Function.update B.cell (it + order * jt) (A.cell (jt + order * it))⟩)
          (P2P.MIN order (j + tile_size) - j) B)
        (P2P.MIN order (i + tile_size) - i) B)
      order tile_size order 0 B)
    order tile_size order 0 B

/-- One transposition (lines 154-171): tiled only if the tile is smaller than the
matrix. -/
def transpose {α : Type} (order tile_size : Nat) (A B : Mat α) : Mat α :=
  if tile_size < order then tiled order tile_size A B else untiled order A B

/-- Constant to shift column index. -/
def COL_SHIFT : ℚ := 1000

/-- Constant to shift row index. -/
def ROW_SHIFT : ℚ := 1 / 1000

/-- Fill the original matrix and set the transpose to -1 (lines 140-145). -/
def fill (order : Nat) (AB : Mat ℚ × Mat ℚ) : Mat ℚ × Mat ℚ :=
  P2P.forLoop (fun i AB =>
    P2P.forLoop (fun j AB =>
      (⟨Function.update AB.1.cell (i * order + j) (COL_SHIFT * (j : ℚ) + ROW_SHIFT * (i : ℚ))⟩,
        ⟨Function.update AB.2.cell (i * order + j) (-1)⟩)) order AB) order AB

/-- The function `test_results` (lines 214-231): the squared error of `trans`. -/
def test_results (order : Nat) (trans : Mat ℚ) : ℚ :=
  P2P.forLoop (fun i errsq =>
    P2P.forLoop (fun j errsq =>
      let diff := trans.cell (i * order + j) - (COL_SHIFT * (i : ℚ) + ROW_SHIFT * (j : ℚ))
      errsq + diff * diff) order errsq) order 0

/-- The transposed matrix and the accumulated squared error. -/
structure State where
  B : Mat ℚ
  errsq : ℚ

/-- The iteration loop (lines 147-185) after `iter` passes. -/
def iterate (order tile_size : Nat) (A B : Mat ℚ) (iter : Nat) : State :=
  P2P.forLoop (fun _ s =>
    let B := transpose order tile_size A s.B
    { B := B, errsq := s.errsq + test_results order B }) iter { B := B, errsq := 0 }

/-- The tile size after lines 75 and 111-113. -/
def tileSize (argc : Int) (arg : Nat → Int) (order : Int) : Int :=
  let tile_size : Int := if argc = 4 then arg 3 else 32
  if tile_size ≤ 0 then order else tile_size

/-- The number of bytes requested from `malloc` at lines 119 and 124,
`order*order*sizeof(double)`: the product `order*order` is computed in 32-bit
`int` arithmetic and converted to the 64-bit `size_t` for the product with
`sizeof(double) = 8`. -/
def allocSize (order : Int) : Nat :=
  ((P2P.wrap32 (order * order) % 18446744073709551616).toNat * 8) % 18446744073709551616

/-- The function `malloc` of the C library: `none` (`NULL`) when the request
exceeds the `avail` bytes the system can still provide, otherwise the block, whose
contents are `mem`. -/
def malloc (avail : Nat) (mem : Mat ℚ) (size : Nat) : Option (Mat ℚ) :=
  if size ≤ avail then some mem else none

/-- How a run of `main` ends: `failure` when an input test or an allocation test
calls `exit(EXIT_FAILURE)` before the loops; `undefined` when the loops run with
index products `i*order+j` beyond the 32-bit `int`; otherwise `finished v`, where
`v` tells whether the run reports that the solution validates. -/
inductive Outcome where
  | failure : Outcome
  | undefined : Outcome
  | finished (validates : Bool) : Outcome
  deriving DecidableEq

/-- The function `main`.  `arg k` is the value `atoi` returns for `argv[k]`;
`avail` is the number of bytes `malloc` can provide; `A0` and `B0` are the
contents of the blocks it returns. -/
def main (argc : Int) (arg : Nat → Int) (avail : Nat) (A0 B0 : Mat ℚ) : Outcome :=
  if argc ≠ 4 ∧ argc ≠ 3 then Outcome.failure
  else
    let iterations := arg 1
    if iterations < 1 then Outcome.failure
    else
      let order := arg 2
      if order < 0 then Outcome.failure
      else
        let tile_size := tileSize argc arg order
        match malloc avail A0 (allocSize order) with
        | none => Outcome.failure
        | some A =>
          match malloc (avail - allocSize order) B0 (allocSize order) with
          | none => Outcome.failure
          | some B =>
            if 2147483648 ≤ order * order then Outcome.undefined
            else
              let AB := fill order.toNat (A, B)
              let s := iterate order.toNat tile_size.toNat AB.1 AB.2 iterations.toNat
              Outcome.finished (decide (s.errsq < 1 / 100000000))

/-- The buffer `B` holds `F idx` at every index `idx` with `P idx` and the same
value as `B0` elsewhere. -/
def Wrote {α : Type} (F : Nat → α) (P : Nat → Prop) (B0 B : Mat α) : Prop :=
  ∀ idx, (P idx → B.cell idx = F idx) ∧ (¬ P idx → B.cell idx = B0.cell idx)

/-- The value the transposition of `A` stores at index `idx`. -/
def transposed {α : Type} (order : Nat) (A : Mat α) (idx : Nat) : α :=
  A.cell (idx / order + order * (idx % order))

end Transpose

namespace P2P

/-! ## Theorems -/

/-! ## Facts about the slice loop -/

theorem offset_zero (m Num_procs : Nat) : offset m Num_procs 0 = 0 := by
  simp [offset]

theorem offset_succ (m Num_procs r : Nat) :
    offset m Num_procs (r + 1) = offset m Num_procs r + rows m Num_procs r := by
  unfold offset rows
  have h : ((min (r + 1) (m % Num_procs) : Nat) : Int)
      = ((min r (m % Num_procs) : Nat) : Int) + (if r < m % Num_procs then 1 else 0) := by
    split_ifs with h <;> omega
  rw [h]
  push_cast
  split_ifs <;> ring

theorem offset_total (m Num_procs : Nat) (hP : 1 ≤ Num_procs) :
    offset m Num_procs Num_procs = m := by
  unfold offset
  have h1 : m % Num_procs < Num_procs := Nat.mod_lt _ (by omega)
  have h2 : min Num_procs (m % Num_procs) = m % Num_procs := by omega
  rw [h2]
  have h3 := Nat.div_add_mod m Num_procs
  have h4 : (Num_procs : Int) * ((m / Num_procs : Nat) : Int)
      + ((m % Num_procs : Nat) : Int) = (m : Int) := by exact_mod_cast h3
  linarith

theorem rows_nonneg (m Num_procs r : Nat) : 0 ≤ rows m Num_procs r := by
  have h : (0 : Int) ≤ ((m / Num_procs : Nat) : Int) := Int.ofNat_nonneg _
  unfold rows; split_ifs <;> omega

theorem rows_pos (m Num_procs r : Nat) (hP : 1 ≤ Num_procs) (hm : Num_procs ≤ m) :
    1 ≤ rows m Num_procs r := by
  have h : 1 ≤ m / Num_procs := (Nat.one_le_div_iff (by omega)).2 hm
  have h' : (1 : Int) ≤ ((m / Num_procs : Nat) : Int) := by exact_mod_cast h
  unfold rows; split_ifs <;> omega

theorem offset_mono (m Num_procs : Nat) {r r' : Nat} (h : r ≤ r') :
    offset m Num_procs r ≤ offset m Num_procs r' := by
  induction r' with
  | zero => have : r = 0 := by omega
            subst this; exact le_refl _
  | succ k ih =>
    rcases Nat.eq_or_lt_of_le h with h1 | h1
    · rw [h1]
    · have := ih (by omega)
      have h2 := rows_nonneg m Num_procs k
      rw [offset_succ]; omega

/-- State of the slice loop after `k` passes. -/
theorem sliceLoop_inv (m Num_procs : Nat) (k : Nat) :
    let s := forLoop (sliceBody m Num_procs) k
      { start := Function.update (fun _ => 0) 0 0, end_ := fun _ => 0 }
    s.start 0 = 0 ∧ (∀ r, k ≤ r → s.start r = 0) ∧
    ∀ r, r < k → s.start r = offset m Num_procs r ∧
      s.end_ r = offset m Num_procs (r + 1) - 1 := by
  induction k with
  | zero => simp [forLoop]
  | succ k ih =>
    obtain ⟨h0, hz, hk⟩ := ih
    simp only [forLoop]
    set s := forLoop (sliceBody m Num_procs) k
      { start := Function.update (fun _ => 0) 0 0, end_ := fun _ => 0 } with hs
    have hstart : ∀ r, (sliceBody m Num_procs k s).start r
        = if r = k ∧ 0 < k then s.end_ (k - 1) + 1 else s.start r := by
      intro r
      unfold sliceBody
      by_cases hk0 : 0 < k
      · by_cases hr : r = k
        · subst hr; simp [hk0]
        · simp [hk0, hr, Function.update_noteq hr]
      · simp [hk0]
    have hend : ∀ r, (sliceBody m Num_procs k s).end_ r
        = if r = k then (sliceBody m Num_procs k s).start k + rows m Num_procs k - 1
          else s.end_ r := by
      intro r
      have hrow : (if k < m % Num_procs then ((m / Num_procs : Nat) : Int) + 1
          else ((m / Num_procs : Nat) : Int)) = rows m Num_procs k := rfl
      by_cases hr : r = k
      · subst hr
        simp only [sliceBody, Function.update_same, if_true, hrow]
      · simp only [sliceBody, Function.update_noteq hr, if_neg hr]
    have hsk : (sliceBody m Num_procs k s).start k = offset m Num_procs k := by
      rw [hstart]
      by_cases hk0 : 0 < k
      · rw [if_pos ⟨rfl, hk0⟩]
        have := (hk (k - 1) (by omega)).2
        rw [this, show k - 1 + 1 = k by omega]; ring
      · have : k = 0 := by omega
        subst this
        simp [h0, offset_zero]
    refine ⟨?_, ?_, ?_⟩
    · rw [hstart]
      by_cases hk0 : 0 < k
      · rw [if_neg (by omega)]; exact h0
      · rw [if_neg (by tauto)]; exact h0
    · intro r hr
      rw [hstart, if_neg (by omega)]
      exact hz r (by omega)
    · intro r hr
      by_cases hrk : r = k
      · subst hrk
        refine ⟨hsk, ?_⟩
        rw [hend, if_pos rfl, hsk, offset_succ]
      · have hlt : r < k := by omega
        rw [hstart, if_neg (by tauto), hend, if_neg hrk]
        exact hk r hlt

theorem slices_start (m Num_procs r : Nat) (hr : r < Num_procs) :
    (slices m Num_procs).start r = offset m Num_procs r :=
  ((sliceLoop_inv m Num_procs Num_procs).2.2 r hr).1

theorem slices_end (m Num_procs r : Nat) (hr : r < Num_procs) :
    (slices m Num_procs).end_ r = offset m Num_procs (r + 1) - 1 :=
  ((sliceLoop_inv m Num_procs Num_procs).2.2 r hr).2

theorem segment_size_eq (m Num_procs r : Nat) (hr : r < Num_procs) :
    segment_size m Num_procs r = rows m Num_procs r := by
  unfold segment_size
  rw [slices_start m Num_procs r hr, slices_end m Num_procs r hr, offset_succ]
  ring

/-! ## Facts about the `ARRAY` index map and the buffer -/

theorem ARRAY_inj {ss i j i' j' : Int} (hi : -1 ≤ i) (hi' : i < ss) (hk : -1 ≤ i')
    (hk' : i' < ss) (h : ARRAY ss i j = ARRAY ss i' j') : i = i' ∧ j = j' := by
  unfold ARRAY at h
  have hj : j = j' := by
    rcases lt_trichotomy j j' with hlt | heq | hgt
    · exfalso
      have h1 : (j' - j) * (ss + 1) ≥ 1 * (ss + 1) :=
        mul_le_mul_of_nonneg_right (by omega) (by omega)
      nlinarith
    · exact heq
    · exfalso
      have h1 : (j - j') * (ss + 1) ≥ 1 * (ss + 1) :=
        mul_le_mul_of_nonneg_right (by omega) (by omega)
      nlinarith
  subst hj
  exact ⟨by omega, rfl⟩

theorem rd_wr_same (v : Buffer) (ss i j x : Int) : rd (wr v ss i j x) ss i j = x := by
  simp [rd, wr]

theorem rd_wr_other (v : Buffer) {ss i j i' j' : Int} (x : Int) (hi : -1 ≤ i) (hi' : i < ss)
    (hk : -1 ≤ i') (hk' : i' < ss) (h : ¬ (i' = i ∧ j' = j)) :
    rd (wr v ss i j x) ss i' j' = rd v ss i' j' := by
  unfold rd wr
  apply Function.update_noteq
  intro heq
  exact h (ARRAY_inj hk hk' hi hi' heq)

theorem rd_wr (v : Buffer) {ss i j i' j' : Int} (x : Int) (hi : -1 ≤ i) (hi' : i < ss)
    (hk : -1 ≤ i') (hk' : i' < ss) :
    rd (wr v ss i j x) ss i' j' = if i' = i ∧ j' = j then x else rd v ss i' j' := by
  split_ifs with h
  · rw [h.1, h.2, rd_wr_same]
  · exact rd_wr_other v x hi hi' hk hk' h

/-- A loop that stores `g k` in row `f k = lo + k` of column `j`. -/
theorem rd_fillRows (ss lo j : Int) (f : Nat → Int) (g : Nat → Int) (hf : ∀ k, f k = lo + k)
    (cnt : Nat) (v : Buffer) (hlo : -1 ≤ lo) (hhi : lo + cnt ≤ ss) (i' j' : Int)
    (hk : -1 ≤ i') (hk' : i' < ss) :
    rd (forLoop (fun k v => wr v ss (f k) j (g k)) cnt v) ss i' j'
      = if j' = j ∧ lo ≤ i' ∧ i' < lo + cnt then g (i' - lo).toNat else rd v ss i' j' := by
  induction cnt with
  | zero =>
    simp only [forLoop]
    rw [if_neg]
    push_cast; omega
  | succ k ih =>
    simp only [forLoop]
    have ih' := ih (by push_cast at hhi; omega)
    rw [rd_wr _ _ (by rw [hf]; omega) (by rw [hf]; push_cast at hhi; omega) hk hk', ih', hf]
    by_cases h1 : i' = lo + k ∧ j' = j
    · rw [if_pos h1, if_pos (by push_cast; omega)]
      congr 1
      omega
    · rw [if_neg h1]
      by_cases h2 : j' = j ∧ lo ≤ i' ∧ i' < lo + k
      · rw [if_pos h2, if_pos (by push_cast; omega)]
      · rw [if_neg h2, if_neg (by push_cast; omega)]

/-- A loop that stores `g j` in column `j` of row `i`, for `j < cnt`. -/
theorem rd_fillCols (ss i : Int) (g : Nat → Int) (cnt : Nat) (v : Buffer)
    (hi : -1 ≤ i) (hi' : i < ss) (i' : Int) (j' : Nat) (hk : -1 ≤ i') (hk' : i' < ss) :
    rd (forLoop (fun j v => wr v ss i (j : Int) (g j)) cnt v) ss i' j'
      = if i' = i ∧ j' < cnt then g j' else rd v ss i' j' := by
  induction cnt with
  | zero => simp [forLoop]
  | succ k ih =>
    simp only [forLoop]
    rw [rd_wr _ _ hi hi' hk hk', ih]
    by_cases h1 : i' = i ∧ (j' : Int) = (k : Int)
    · rw [if_pos h1, if_pos ⟨h1.1, by omega⟩]
      have : j' = k := by omega
      rw [this]
    · rw [if_neg h1]
      by_cases h2 : i' = i ∧ j' < k
      · rw [if_pos h2, if_pos ⟨h2.1, by omega⟩]
      · rw [if_neg h2, if_neg]
        intro h3
        rcases h3 with ⟨h3, h4⟩
        have : ¬ j' < k := fun h => h2 ⟨h3, h⟩
        exact h1 ⟨h3, by omega⟩

/-- After the clear loop every cell of the segment is zero. -/
theorem rd_clear (n : Nat) (ss start end_ : Int) (v : Buffer) (hss : end_ - start + 1 = ss)
    (hpos : 0 ≤ ss) (i' : Int) (j' : Nat) (hk : -1 ≤ i') (hk' : i' < ss) (hj : j' < n) :
    rd (clear n ss start end_ v) ss i' j' = 0 := by
  unfold clear
  have key : ∀ cnt : Nat, j' < cnt →
      rd (forLoop (fun j v =>
        forLoop (fun k v => wr v ss ((start - 1 + k) - start) j 0)
          (end_ + 1 - (start - 1)).toNat v) cnt v) ss i' j' = 0 := by
    intro cnt
    induction cnt with
    | zero => intro h; omega
    | succ c ih =>
      intro h
      simp only [forLoop]
      rw [rd_fillRows ss (-1) (c : Int) (fun k => (start - 1 + k) - start) (fun _ => 0)
        (fun k => by ring) _ _ (le_refl _) (by rw [Int.toNat_of_nonneg (by omega)]; omega)
        i' j' hk hk']
      by_cases h1 : (j' : Int) = (c : Int)
      · rw [if_pos]
        refine ⟨h1, hk, ?_⟩
        rw [Int.toNat_of_nonneg (by omega)]; omega
      · rw [if_neg (fun h2 => h1 h2.1)]
        exact ih (by omega)
  exact key n hj

/-- The cells of a segment after the boundary values are set. -/
theorem rd_setBoundary (n my_ID : Nat) (ss start end_ : Int) (v : Buffer)
    (hss : end_ - start + 1 = ss) (hpos : 1 ≤ ss) (i' : Int) (j' : Nat)
    (hk : -1 ≤ i') (hk' : i' < ss) :
    rd (setBoundary n my_ID ss start end_ v) ss i' j'
      = if j' = 0 then start + i'
        else if my_ID = 0 ∧ i' = 0 ∧ j' < n then (j' : Int) else rd v ss i' j' := by
  unfold setBoundary
  simp only []
  rw [rd_fillRows ss (-1) 0 (fun k => (start - 1 + k) - start) (fun k => start - 1 + k)
    (fun k => by ring) _ _ (le_refl _) (by rw [Int.toNat_of_nonneg (by omega)]; omega)
    i' j' hk hk']
  by_cases hj : j' = 0
  · rw [if_pos hj, if_pos]
    · rw [Int.toNat_of_nonneg (by omega)]; ring
    · refine ⟨by exact_mod_cast hj, hk, ?_⟩
      rw [Int.toNat_of_nonneg (by omega)]; omega
  · rw [if_neg hj, if_neg (fun h => hj (by exact_mod_cast h.1))]
    by_cases h0 : my_ID = 0
    · rw [if_pos h0, rd_fillCols ss 0 (fun j => (j : Int)) n v (by omega) (by omega) i' j' hk hk']
      simp [h0]
    · rw [if_neg h0, if_neg (fun h => h0 h.1)]

/-- The cells of rank `r` when the iteration loop starts. -/
theorem rd_initVector (m n Num_procs r : Nat) (hP : r < Num_procs) (hm : Num_procs ≤ m)
    (i : Int) (j : Nat) (hi : -1 ≤ i) (hi' : i < segment_size m Num_procs r) (hj : j < n) :
    rd (initVector m n Num_procs r) (segment_size m Num_procs r) i j
      = if j = 0 then (slices m Num_procs).start r + i
        else if r = 0 ∧ i = 0 then (j : Int) else 0 := by
  have hpos : 1 ≤ segment_size m Num_procs r := by
    rw [segment_size_eq m Num_procs r hP]; exact rows_pos m Num_procs r (by omega) hm
  unfold initVector
  simp only []
  rw [rd_setBoundary n r _ _ _ _ (by unfold segment_size; ring) hpos i j hi hi',
    rd_clear n _ _ _ _ (by unfold segment_size; ring) (by omega) i j hi hi' hj]
  simp [hj]

/-- The row loop in closed form: every swept cell of column `j` is the cell above
the first swept row, shifted by the difference found in column `j-1`. -/
theorem rd_rowLoop (ss start end_ j : Int) (v : Buffer) (hs : 0 ≤ start) (he : end_ < ss)
    (i' j' : Int) (hk : -1 ≤ i') (hk' : i' < ss) :
    rd (rowLoop ss start end_ j v) ss i' j'
      = if j' = j ∧ start ≤ i' ∧ i' ≤ end_
        then rd v ss (start - 1) j + rd v ss i' (j - 1) - rd v ss (start - 1) (j - 1)
        else rd v ss i' j' := by
  unfold rowLoop
  have key : ∀ cnt : Nat, start + cnt ≤ ss → ∀ i' j' : Int, -1 ≤ i' → i' < ss →
      rd (forLoop (fun k v =>
        let i := start + k
        wr v ss i j (rd v ss (i - 1) j + rd v ss i (j - 1) - rd v ss (i - 1) (j - 1)))
        cnt v) ss i' j'
      = if j' = j ∧ start ≤ i' ∧ i' < start + cnt
        then rd v ss (start - 1) j + rd v ss i' (j - 1) - rd v ss (start - 1) (j - 1)
        else rd v ss i' j' := by
    intro cnt
    induction cnt with
    | zero =>
      intro _ i' j' _ _
      simp only [forLoop]
      rw [if_neg]; push_cast; omega
    | succ c ih =>
      intro hc i' j' hk hk'
      have ih' := ih (by push_cast at hc; omega)
      simp only [forLoop]
      rw [rd_wr _ _ (by omega) (by push_cast at hc; omega) hk hk']
      by_cases h1 : i' = start + c ∧ j' = j
      · rw [if_pos h1, if_pos (by push_cast; omega)]
        have e2 := ih' (start + c) (j - 1) (by omega) (by push_cast at hc; omega)
        rw [if_neg (by omega)] at e2
        have e3 := ih' (start + c - 1) (j - 1) (by omega) (by push_cast at hc; omega)
        rw [if_neg (by omega)] at e3
        have e1 := ih' (start + c - 1) j (by omega) (by push_cast at hc; omega)
        rw [e2, e3, e1, h1.1]
        by_cases hc0 : c = 0
        · subst hc0
          rw [if_neg (by push_cast; omega)]
          simp
        · rw [if_pos (by omega)]
          ring
      · rw [if_neg h1, ih' i' j' hk hk']
        by_cases h2 : j' = j ∧ start ≤ i' ∧ i' < start + c
        · rw [if_pos h2, if_pos (by push_cast; omega)]
        · rw [if_neg h2, if_neg (by push_cast; omega)]
  by_cases hcnt : start ≤ end_ + 1
  · have := key (end_ + 1 - start).toNat (by rw [Int.toNat_of_nonneg (by omega)]; omega)
      i' j' hk hk'
    rw [this, Int.toNat_of_nonneg (by omega)]
    by_cases h2 : j' = j ∧ start ≤ i' ∧ i' ≤ end_
    · rw [if_pos h2, if_pos (by omega)]
    · rw [if_neg h2, if_neg (by omega)]
  · have h0 : (end_ + 1 - start).toNat = 0 := Int.toNat_eq_zero.2 (by omega)
    rw [h0]
    simp only [forLoop]
    rw [if_neg (by omega)]

/-! ## Facts about the message calls -/

theorem MPI_Send_vector (w : World) (me dest tag : Nat) (val : Int) :
    (MPI_Send w me dest tag val).vector = w.vector := rfl

theorem MPI_Send_chan (w : World) (me dest tag : Nat) (val : Int) (a b : Nat) :
    (MPI_Send w me dest tag val).chan a b
      = if a = me ∧ b = dest then w.chan me dest ++ [(tag, val)] else w.chan a b := by
  unfold MPI_Send
  by_cases ha : a = me
  · subst ha
    by_cases hb : b = dest
    · subst hb; simp
    · simp [hb, Function.update_noteq hb]
  · simp [ha, Function.update_noteq ha]

theorem MPI_Send_trace (w : World) (me dest tag : Nat) (val : Int) (a : Nat) :
    (MPI_Send w me dest tag val).trace a
      = if a = me then w.trace me ++ [Event.send dest tag] else w.trace a := by
  unfold MPI_Send
  by_cases ha : a = me
  · subst ha; simp
  · simp [ha, Function.update_noteq ha]

/-- A receive whose message is at the head of its queue completes. -/
theorem MPI_Recv_head (w : World) (me source tag : Nat) (x : Int) (q : List (Nat × Int))
    (h : w.chan source me = (tag, x) :: q) :
    ∃ w', MPI_Recv w me source tag = some (x, w') ∧ w'.vector = w.vector ∧
      (∀ a b, w'.chan a b = if a = source ∧ b = me then q else w.chan a b) ∧
      (∀ a, w'.trace a = if a = me then w.trace me ++ [Event.recv source tag]
        else w.trace a) := by
  refine ⟨{ w with
      chan := Function.update w.chan source (Function.update (w.chan source) me q)
      trace := Function.update w.trace me (w.trace me ++ [Event.recv source tag]) },
    ?_, rfl, ?_, ?_⟩
  · unfold MPI_Recv
    rw [h]
    simp only [takeTag, if_true, Option.map_some']
  · intro a b
    by_cases ha : a = source
    · subst ha
      by_cases hb : b = me
      · subst hb; simp
      · simp [hb, Function.update_noteq hb]
    · simp [ha, Function.update_noteq ha]
  · intro a
    by_cases ha : a = me
    · subst ha; simp
    · simp [ha, Function.update_noteq ha]

theorem setVector_vector (w : World) (me : Nat) (v : Buffer) (a : Nat) :
    (w.setVector me v).vector a = if a = me then v else w.vector a := by
  unfold World.setVector
  by_cases ha : a = me
  · subst ha; simp
  · simp [ha, Function.update_noteq ha]

theorem setVector_chan (w : World) (me : Nat) (v : Buffer) :
    (w.setVector me v).chan = w.chan := rfl

theorem setVector_trace (w : World) (me : Nat) (v : Buffer) :
    (w.setVector me v).trace = w.trace := rfl

theorem msgs_snoc (x : Nat → Int) (lo cnt : Nat) :
    msgs x lo (cnt + 1) = msgs x lo cnt ++ [(lo + cnt, x (lo + cnt))] := by
  induction cnt generalizing lo with
  | zero => simp [msgs]
  | succ c ih =>
    rw [msgs, ih (lo + 1), msgs]
    simp [Nat.add_assoc, Nat.add_comm 1 c]

theorem sweepEvents_snoc (Num_procs r lo cnt : Nat) :
    sweepEvents Num_procs r lo (cnt + 1) = sweepEvents Num_procs r lo cnt ++
      ((if 0 < r then [Event.recv (r - 1) (lo + cnt)] else []) ++
        (if r ≠ Num_procs - 1 then [Event.send (r + 1) (lo + cnt)] else [])) := by
  induction cnt generalizing lo with
  | zero => simp [sweepEvents]
  | succ c ih =>
    rw [sweepEvents, ih (lo + 1), sweepEvents]
    simp only [List.append_assoc, Nat.add_assoc, Nat.add_comm 1 c]

/-- One pass of the column loop on rank `r`, when the message it waits for is at
the head of the queue from its left neighbour. -/
theorem sweepColumn_spec (m Num_procs r j : Nat) (w : World) (x : Int)
    (q : List (Nat × Int)) (hrecv : 0 < r → w.chan (r - 1) r = (j, x) :: q) :
    ∃ w', sweepColumn m Num_procs r j w = some w' ∧
      w'.vector r = rowLoop (segment_size m Num_procs r) (localStart r)
        (localEnd m Num_procs r) j
        (if 0 < r then wr (w.vector r) (segment_size m Num_procs r) (localStart r - 1) j x
          else w.vector r) ∧
      (∀ a, a ≠ r → w'.vector a = w.vector a) ∧
      (∀ a b, w'.chan a b =
        if 0 < r ∧ a = r - 1 ∧ b = r then q
        else if r ≠ Num_procs - 1 ∧ a = r ∧ b = r + 1 then
          w.chan a b ++ [(j, rd (w'.vector r) (segment_size m Num_procs r)
            (localEnd m Num_procs r) j)]
        else w.chan a b) ∧
      (∀ a, w'.trace a =
        if a = r then w.trace r ++
          ((if 0 < r then [Event.recv (r - 1) j] else []) ++
            (if r ≠ Num_procs - 1 then [Event.send (r + 1) j] else []))
        else w.trace a) := by
  -- the world after the receive, if any
  have step1 : ∃ w1, (if r > 0 then
      (MPI_Recv w r (r - 1) j).map (fun p =>
        p.2.setVector r (wr (p.2.vector r) (segment_size m Num_procs r)
          (localStart r - 1) j p.1))
      else some w) = some w1 ∧
      w1.vector r = (if 0 < r then wr (w.vector r) (segment_size m Num_procs r)
        (localStart r - 1) j x else w.vector r) ∧
      (∀ a, a ≠ r → w1.vector a = w.vector a) ∧
      (∀ a b, w1.chan a b = if 0 < r ∧ a = r - 1 ∧ b = r then q else w.chan a b) ∧
      (∀ a, w1.trace a = if a = r then
        w.trace r ++ (if 0 < r then [Event.recv (r - 1) j] else []) else w.trace a) := by
    by_cases hr : 0 < r
    · obtain ⟨w', hw', hv, hc, ht⟩ := MPI_Recv_head w r (r - 1) j x q (hrecv hr)
      refine ⟨w'.setVector r (wr (w'.vector r) (segment_size m Num_procs r)
        (localStart r - 1) j x), ?_, ?_, ?_, ?_, ?_⟩
      · rw [if_pos hr, hw']; rfl
      · rw [setVector_vector, if_pos rfl, if_pos hr, hv]
      · intro a ha
        rw [setVector_vector, if_neg ha, hv]
      · intro a b
        rw [setVector_chan, hc]
        by_cases h : a = r - 1 ∧ b = r
        · rw [if_pos h, if_pos ⟨hr, h⟩]
        · rw [if_neg h, if_neg (fun h' => h h'.2)]
      · intro a
        rw [setVector_trace, ht, if_pos hr]
    · refine ⟨w, ?_, ?_, ?_, ?_, ?_⟩
      · rw [if_neg hr]
      · rw [if_neg hr]
      · intro a _; rfl
      · intro a b; rw [if_neg (fun h => hr h.1)]
      · intro a
        rw [if_neg hr, List.append_nil]
        split_ifs with h
        · rw [h]
        · rfl
  obtain ⟨w1, hw1, hv1, hvo1, hc1, ht1⟩ := step1
  unfold sweepColumn
  simp only []
  rw [hw1, Option.map_some']
  by_cases hlast : r ≠ Num_procs - 1
  · rw [if_pos hlast]
    refine ⟨_, rfl, ?_, ?_, ?_, ?_⟩
    · rw [MPI_Send_vector, setVector_vector, if_pos rfl, hv1]
    · intro a ha
      rw [MPI_Send_vector, setVector_vector, if_neg ha, hvo1 a ha]
    · intro a b
      rw [MPI_Send_chan, MPI_Send_vector]
      simp only [setVector_chan]
      by_cases h2 : a = r ∧ b = r + 1
      · rw [if_pos h2, if_neg (by omega), if_pos ⟨hlast, h2⟩, hc1, if_neg (by omega),
          h2.1, h2.2]
      · rw [if_neg h2, hc1]
        by_cases h1 : 0 < r ∧ a = r - 1 ∧ b = r
        · rw [if_pos h1, if_pos h1]
        · rw [if_neg h1, if_neg h1, if_neg (fun h => h2 h.2)]
    · intro a
      rw [MPI_Send_trace]
      simp only [setVector_trace]
      by_cases h : a = r
      · rw [if_pos h, if_pos h, ht1, if_pos rfl, if_pos hlast, List.append_assoc]
      · rw [if_neg h, if_neg h, ht1, if_neg h]
  · rw [if_neg hlast]
    refine ⟨_, rfl, ?_, ?_, ?_, ?_⟩
    · rw [setVector_vector, if_pos rfl, hv1]
    · intro a ha
      rw [setVector_vector, if_neg ha, hvo1 a ha]
    · intro a b
      rw [setVector_chan, hc1]
      by_cases h1 : 0 < r ∧ a = r - 1 ∧ b = r
      · rw [if_pos h1, if_pos h1]
      · rw [if_neg h1, if_neg h1, if_neg (fun h => hlast h.1)]
    · intro a
      rw [setVector_trace, ht1, if_neg hlast, List.append_nil]

theorem localStart_nonneg (r : Nat) : 0 ≤ localStart r := by
  unfold localStart; split_ifs <;> omega

theorem localStart_le_one (r : Nat) : localStart r ≤ 1 := by
  unfold localStart; split_ifs <;> omega

theorem localStart_pos (r : Nat) (h : 0 < r) : localStart r = 0 := by
  unfold localStart; rw [if_neg (by omega)]

theorem localStart_zero : localStart 0 = 1 := rfl

/-- The column loop of rank `r` after `c` passes, when the queue from the left
neighbour holds the messages for columns `1..n-1` in order. -/
theorem sweep_loop_spec (m n Num_procs r : Nat) (w : World) (x : Nat → Int)
    (hss : 1 ≤ segment_size m Num_procs r)
    (hrecv : 0 < r → w.chan (r - 1) r = msgs x 1 (n - 1)) :
    ∀ c, c ≤ n - 1 →
    ∃ w', forLoopM (fun k w => sweepColumn m Num_procs r (k + 1) w) c w = some w' ∧
      (∀ a, a ≠ r → w'.vector a = w.vector a) ∧
      (∀ (i : Int) (j : Nat), -1 ≤ i → i < segment_size m Num_procs r →
        rd (w'.vector r) (segment_size m Num_procs r) i j =
          if 1 ≤ j ∧ j ≤ c ∧ localStart r - 1 ≤ i then swept w m Num_procs r x i j
          else rd (w.vector r) (segment_size m Num_procs r) i j) ∧
      (∀ a b, w'.chan a b =
        if 0 < r ∧ a = r - 1 ∧ b = r then msgs x (c + 1) (n - 1 - c)
        else if r ≠ Num_procs - 1 ∧ a = r ∧ b = r + 1 then
          w.chan a b ++ msgs (fun j => swept w m Num_procs r x (localEnd m Num_procs r) j) 1 c
        else w.chan a b) ∧
      (∀ a, w'.trace a =
        if a = r then w.trace r ++ sweepEvents Num_procs r 1 c else w.trace a) := by
  intro c
  induction c with
  | zero =>
    intro _
    refine ⟨w, rfl, fun _ _ => rfl, ?_, ?_, ?_⟩
    · intro i j _ _
      rw [if_neg (by omega)]
    · intro a b
      by_cases h1 : 0 < r ∧ a = r - 1 ∧ b = r
      · rw [if_pos h1, h1.2.1, h1.2.2, hrecv h1.1]; rfl
      · rw [if_neg h1]
        split_ifs <;> simp [msgs]
    · intro a
      split_ifs with h
      · rw [h]; simp [sweepEvents]
      · rfl
  | succ c ih =>
    intro hc
    obtain ⟨wc, hwc, hvo, hvr, hch, htr⟩ := ih (by omega)
    set ss := segment_size m Num_procs r with hssd
    set st := localStart r with hstd
    set en := localEnd m Num_procs r with hend
    have hst0 : 0 ≤ st := localStart_nonneg r
    have hst1 : st ≤ 1 := localStart_le_one r
    have hen : en = ss - 1 := rfl
    have hq : 0 < r → wc.chan (r - 1) r
        = (c + 1, x (c + 1)) :: msgs x (c + 1 + 1) (n - 1 - (c + 1)) := by
      intro hr
      rw [hch, if_pos ⟨hr, rfl, rfl⟩]
      have : n - 1 - c = (n - 1 - (c + 1)) + 1 := by omega
      rw [this, msgs]
    obtain ⟨w', hw', hv', hvo', hch', htr'⟩ :=
      sweepColumn_spec m Num_procs r (c + 1) wc (x (c + 1)) _ hq
    -- the buffer the row loop starts from
    obtain ⟨vpre, hvpre⟩ : ∃ v : Buffer, v = (if 0 < r then
        wr (wc.vector r) ss (st - 1) ((c + 1 : Nat) : Int) (x (c + 1)) else wc.vector r) :=
      ⟨_, rfl⟩
    have hv'' : w'.vector r = rowLoop ss st en ((c + 1 : Nat) : Int) vpre := by
      rw [hvpre]; exact hv'
    have hpre : ∀ (i : Int) (j : Nat), -1 ≤ i → i < ss →
        rd vpre ss i j
        = if 0 < r ∧ i = st - 1 ∧ j = c + 1 then x (c + 1) else rd (wc.vector r) ss i j := by
      intro i j hi hi'
      rw [hvpre]
      by_cases hr : 0 < r
      · rw [if_pos hr, rd_wr _ _ (by omega) (by omega) hi hi']
        by_cases h : i = st - 1 ∧ (j : Int) = ((c + 1 : Nat) : Int)
        · rw [if_pos h, if_pos ⟨hr, h.1, by exact_mod_cast h.2⟩]
        · rw [if_neg h, if_neg]
          intro h2
          exact h ⟨h2.2.1, by exact_mod_cast h2.2.2⟩
      · rw [if_neg hr, if_neg (fun h => hr h.1)]
    -- the row above the first swept row, in the new column
    have habove : rd vpre ss (st - 1) ((c + 1 : Nat) : Int)
        = above w m Num_procs r x (c + 1) := by
      rw [hpre (st - 1) (c + 1) (by omega) (by omega)]
      unfold above
      by_cases hr : 0 < r
      · rw [if_pos ⟨hr, rfl, rfl⟩, if_pos hr]
      · rw [if_neg (fun h => hr h.1), if_neg hr, hvr (st - 1) (c + 1) (by omega) (by omega),
          if_neg (by omega)]
    -- column `c` of the buffer, relative to the row above the first swept row
    have hdiff : ∀ i : Int, st - 1 ≤ i → i < ss →
        rd (wc.vector r) ss i (c : Nat) - rd (wc.vector r) ss (st - 1) (c : Nat)
        = rd (w.vector r) ss i 0 - rd (w.vector r) ss (st - 1) 0 := by
      intro i hi hi'
      rw [hvr i c (by omega) hi', hvr (st - 1) c (by omega) (by omega)]
      by_cases hc0 : 1 ≤ c
      · rw [if_pos ⟨hc0, le_refl _, hi⟩, if_pos ⟨hc0, le_refl _, le_refl _⟩]
        unfold swept
        ring
      · have : c = 0 := by omega
        subst this
        rw [if_neg (by omega), if_neg (by omega)]
        rfl
    have hcell : ∀ (i : Int) (j : Nat), -1 ≤ i → i < ss →
        rd (w'.vector r) ss i j =
          if 1 ≤ j ∧ j ≤ c + 1 ∧ st - 1 ≤ i then swept w m Num_procs r x i j
          else rd (w.vector r) ss i j := by
      intro i j hi hi'
      rw [hv'', rd_rowLoop ss st en _ _ hst0 (by omega) i j hi hi']
      by_cases hj : j = c + 1
      · subst hj
        by_cases hrow : st ≤ i
        · rw [if_pos ⟨rfl, hrow, by omega⟩, if_pos ⟨by omega, le_refl _, by omega⟩, habove]
          have e1 := hpre i c hi hi'
          rw [if_neg (by omega)] at e1
          have e2 := hpre (st - 1) c (by omega) (by omega)
          rw [if_neg (by omega)] at e2
          have e3 : (((c + 1 : Nat) : Int) - 1) = ((c : Nat) : Int) := by push_cast; ring
          rw [e3, e1, e2]
          have := hdiff i (by omega) hi'
          unfold swept
          linarith
        · rw [if_neg (by omega)]
          by_cases hrow2 : i = st - 1
          · rw [hrow2, habove, if_pos ⟨by omega, le_refl _, le_refl _⟩]
            unfold swept
            ring
          · rw [hpre i (c + 1) hi hi', if_neg (by omega), if_neg (by omega),
              hvr i (c + 1) hi hi', if_neg (by omega)]
      · rw [if_neg (fun h => hj (by exact_mod_cast h.1)), hpre i j hi hi',
          if_neg (fun h => hj h.2.2), hvr i j hi hi']
        by_cases h : 1 ≤ j ∧ j ≤ c ∧ st - 1 ≤ i
        · rw [if_pos h, if_pos ⟨h.1, by omega, h.2.2⟩]
        · rw [if_neg h, if_neg (by omega)]
    refine ⟨w', ?_, ?_, hcell, ?_, ?_⟩
    · simp only [forLoopM]
      rw [hwc]
      exact hw'
    · intro a ha
      rw [hvo' a ha, hvo a ha]
    · intro a b
      rw [hch' a b]
      by_cases h1 : 0 < r ∧ a = r - 1 ∧ b = r
      · rw [if_pos h1, if_pos h1]
      · rw [if_neg h1, if_neg h1]
        by_cases h2 : r ≠ Num_procs - 1 ∧ a = r ∧ b = r + 1
        · rw [if_pos h2, if_pos h2, hch a b, if_neg h1, if_pos h2, msgs_snoc,
            List.append_assoc]
          have hval := hcell en (c + 1) (by omega) (by omega)
          rw [if_pos ⟨by omega, le_refl _, by omega⟩] at hval
          rw [Nat.add_comm 1 c]
          exact congrArg (fun z => w.chan a b ++ (msgs _ 1 c ++ [(c + 1, z)])) hval
        · rw [if_neg h2, if_neg h2, hch a b, if_neg h1, if_neg h2]
    · intro a
      rw [htr' a]
      by_cases h : a = r
      · rw [if_pos h, if_pos h, htr r, if_pos rfl, sweepEvents_snoc, List.append_assoc,
          Nat.add_comm 1 c]
      · rw [if_neg h, if_neg h, htr a, if_neg h]

theorem msgs_congr (x y : Nat → Int) (lo cnt : Nat)
    (h : ∀ j, lo ≤ j → j < lo + cnt → x j = y j) : msgs x lo cnt = msgs y lo cnt := by
  induction cnt generalizing lo with
  | zero => rfl
  | succ c ih =>
    rw [msgs, msgs, h lo (le_refl _) (by omega), ih (lo + 1) (fun j h1 h2 => h j (by omega) (by omega))]

theorem rows_zero_two (m Num_procs : Nat) (hP : 1 ≤ Num_procs) (hm : Num_procs ≤ m) :
    2 ≤ rows m Num_procs 0 ↔ Num_procs < m := by
  have hd := Nat.div_add_mod m Num_procs
  have hq : 1 ≤ m / Num_procs := (Nat.one_le_div_iff (by omega)).2 hm
  have hq' : (1 : Int) ≤ ((m / Num_procs : Nat) : Int) := by exact_mod_cast hq
  unfold rows
  constructor
  · intro h
    by_contra hlt
    have hmP : m = Num_procs := by omega
    subst hmP
    have h1 : m / m = 1 := Nat.div_self (by omega)
    have h2 : m % m = 0 := Nat.mod_self m
    rw [h1, h2] at h
    simp at h
  · intro h
    by_cases h2 : 2 ≤ m / Num_procs
    · have h2' : (2 : Int) ≤ ((m / Num_procs : Nat) : Int) := by exact_mod_cast h2
      split_ifs <;> omega
    · have h1 : m / Num_procs = 1 := by omega
      rw [h1] at hd
      rw [if_pos (by omega), h1]
      norm_num

theorem offset_one (m Num_procs : Nat) : offset m Num_procs 1 = rows m Num_procs 0 := by
  have := offset_succ m Num_procs 0
  rw [offset_zero] at this
  simpa using this

theorem offset_pos (m Num_procs r : Nat) (hP : 1 ≤ Num_procs) (hm : Num_procs ≤ m)
    (hr : 1 ≤ r) : 1 ≤ offset m Num_procs r := by
  have h1 := offset_mono m Num_procs hr
  rw [offset_one] at h1
  have := rows_pos m Num_procs 0 hP hm
  omega

theorem offset_ge_two (m Num_procs r : Nat) (hP : 1 ≤ Num_procs) (hm : Num_procs < m)
    (hr : 1 ≤ r) : 2 ≤ offset m Num_procs r := by
  have h1 := offset_mono m Num_procs hr
  rw [offset_one] at h1
  have := (rows_zero_two m Num_procs hP (by omega)).2 hm
  omega

/-- What the sweep of rank `k` computes when it starts from a `Ready` buffer and
receives the last row of its left neighbour. -/
theorem swept_eq_gridVal (m n Num_procs k : Nat) (c0 : Int) (w wk : World)
    (hP : 1 ≤ Num_procs) (hm : Num_procs ≤ m) (hk : k < Num_procs)
    (hw : Ready m n Num_procs c0 w) (hvk : wk.vector k = w.vector k)
    (i : Int) (j : Nat) (hj : 1 ≤ j) (hjn : j < n) (hi : localStart k - 1 ≤ i)
    (hi' : i < segment_size m Num_procs k) :
    swept wk m Num_procs k
      (gridVal (shift m Num_procs c0) (offset m Num_procs k - 1)) i j
      = gridVal (shift m Num_procs c0) (offset m Num_procs k + i) j := by
  obtain ⟨_, hcol, hrow⟩ := hw
  have hst0 := localStart_nonneg k
  have hss : 1 ≤ segment_size m Num_procs k := by
    rw [segment_size_eq m Num_procs k hk]; exact rows_pos m Num_procs k hP hm
  have c1 := hcol k hk i (by omega) hi'
  have c2 := hcol k hk (localStart k - 1) (by omega) (by omega)
  unfold swept above
  rw [hvk, c1, c2]
  clear c1 c2
  rcases Nat.eq_zero_or_pos k with hk0 | hkpos
  · subst hk0
    rw [if_neg (by omega), localStart_zero]
    rw [localStart_zero] at hi
    have e : ((1 : Int) - 1) = 0 := by norm_num
    rw [e, hrow j hj hjn, offset_zero]
    rw [e] at hi
    unfold gridVal
    by_cases hi0 : i = 0
    · subst hi0
      simp
    · have h2 : 2 ≤ rows m Num_procs 0 := by
        rw [← segment_size_eq m Num_procs 0 hk]; omega
      have hlt := (rows_zero_two m Num_procs hP hm).1 h2
      unfold shift
      simp [hi0, hlt]
      ring
  · rw [if_pos hkpos, if_neg (by omega), if_neg (by omega), localStart_pos k hkpos]
    rw [localStart_pos k hkpos] at hi
    have hoff := offset_pos m Num_procs k hP hm hkpos
    unfold gridVal
    by_cases hi1 : i = -1
    · subst hi1
      have e : offset m Num_procs k + -1 = offset m Num_procs k - 1 := by ring
      rw [e]
      split_ifs <;> ring
    · rw [if_neg (show ¬ offset m Num_procs k + i = 0 by omega)]
      by_cases ho : offset m Num_procs k - 1 = 0
      · rw [if_pos ho]
        have hnlt : ¬ Num_procs < m := by
          intro hlt
          have := offset_ge_two m Num_procs k hP hlt hkpos
          omega
        unfold shift
        rw [if_neg hnlt]
        omega
      · rw [if_neg ho]; ring

/-- The sweeps of ranks `0..k-1` of one iteration, started in a `Ready` world. -/
theorem sweepAll_loop_spec (m n Num_procs : Nat) (c0 : Int) (w : World)
    (hP : 1 ≤ Num_procs) (hm : Num_procs ≤ m) (hw : Ready m n Num_procs c0 w) :
    ∀ k, k ≤ Num_procs →
    ∃ w', forLoopM (fun r w => sweep m n Num_procs r w) k w = some w' ∧
      (∀ a, k ≤ a → w'.vector a = w.vector a) ∧
      (∀ a, a < k → ∀ (i : Int) (j : Nat), -1 ≤ i → i < segment_size m Num_procs a → j < n →
        rd (w'.vector a) (segment_size m Num_procs a) i j =
          if 1 ≤ j ∧ localStart a - 1 ≤ i
          then gridVal (shift m Num_procs c0) (offset m Num_procs a + i) j
          else rd (w.vector a) (segment_size m Num_procs a) i j) ∧
      (∀ a b, w'.chan a b =
        if 0 < k ∧ k < Num_procs ∧ a = k - 1 ∧ b = k
        then msgs (gridVal (shift m Num_procs c0) (offset m Num_procs k - 1)) 1 (n - 1)
        else []) ∧
      (∀ a, w'.trace a =
        if a < k then w.trace a ++ sweepEvents Num_procs a 1 (n - 1) else w.trace a) := by
  intro k
  induction k with
  | zero =>
    intro _
    refine ⟨w, rfl, fun _ _ => rfl, ?_, ?_, ?_⟩
    · intro a ha; omega
    · intro a b
      rw [if_neg (by omega)]
      exact hw.1 a b
    · intro a
      rw [if_neg (by omega)]
  | succ k ih =>
    intro hk
    obtain ⟨wk, hwk, hvo, hvr, hch, htr⟩ := ih (by omega)
    have hkP : k < Num_procs := by omega
    have hss : 1 ≤ segment_size m Num_procs k := by
      rw [segment_size_eq m Num_procs k hkP]; exact rows_pos m Num_procs k hP hm
    have hrecv : 0 < k → wk.chan (k - 1) k
        = msgs (gridVal (shift m Num_procs c0) (offset m Num_procs k - 1)) 1 (n - 1) := by
      intro h0
      rw [hch, if_pos ⟨h0, hkP, rfl, rfl⟩]
    obtain ⟨w', hw', hvo', hvr', hch', htr'⟩ :=
      sweep_loop_spec m n Num_procs k wk _ hss hrecv (n - 1) (le_refl _)
    have hvk : wk.vector k = w.vector k := hvo k (le_refl _)
    have hst0 := localStart_nonneg k
    have hst1 := localStart_le_one k
    refine ⟨w', ?_, ?_, ?_, ?_, ?_⟩
    · simp only [forLoopM]
      rw [hwk]
      exact hw'
    · intro a ha
      rw [hvo' a (by omega), hvo a (by omega)]
    · intro a ha i j hi hi' hj
      by_cases hak : a = k
      · subst hak
        rw [hvr' i j hi hi', hvk]
        by_cases hc : 1 ≤ j ∧ localStart a - 1 ≤ i
        · rw [if_pos ⟨hc.1, by omega, hc.2⟩, if_pos hc]
          exact swept_eq_gridVal m n Num_procs a c0 w wk hP hm hkP hw hvk i j hc.1 hj hc.2 hi'
        · rw [if_neg hc, if_neg (fun h => hc ⟨h.1, h.2.2⟩)]
      · rw [hvo' a hak]
        exact hvr a (by omega) i j hi hi' hj
    · intro a b
      rw [hch' a b]
      by_cases h1 : 0 < k ∧ a = k - 1 ∧ b = k
      · rw [if_pos h1, if_neg (by omega)]
        have : n - 1 - (n - 1) = 0 := by omega
        rw [this]; rfl
      · rw [if_neg h1]
        have hwkab : wk.chan a b = [] := by
          rw [hch a b, if_neg (fun h => h1 ⟨h.1, h.2.2⟩)]
        by_cases h2 : k ≠ Num_procs - 1 ∧ a = k ∧ b = k + 1
        · rw [if_pos h2, if_pos ⟨by omega, by omega, by omega, h2.2.2⟩, hwkab, List.nil_append]
          apply msgs_congr
          intro j hj1 hj2
          have e : offset m Num_procs (k + 1) - 1
              = offset m Num_procs k + localEnd m Num_procs k := by
            rw [offset_succ]
            unfold localEnd
            rw [segment_size_eq m Num_procs k hkP]; ring
          rw [e]
          unfold localEnd
          exact swept_eq_gridVal m n Num_procs k c0 w wk hP hm hkP hw hvk _ j (by omega)
            (by omega) (by omega) (by omega)
        · rw [if_neg h2, hwkab, if_neg]
          intro h3
          apply h2
          refine ⟨by omega, by omega, h3.2.2.2⟩
    · intro a
      rw [htr' a]
      by_cases hak : a = k
      · rw [if_pos hak, if_pos (by omega), htr k, if_neg (by omega), hak]
      · rw [if_neg hak, htr a]
        by_cases hlt : a < k
        · rw [if_pos hlt, if_pos (by omega)]
        · rw [if_neg hlt, if_neg (by omega)]

/-- The corner copy, when no message is pending from the timing rank to rank 0:
the same write on rank 0 whether it goes through the tag-888 message or through
the local assignment, and nothing else changes. -/
theorem cornerCopy_spec (m n Num_procs : Nat) (w : World)
    (hch : 1 < Num_procs → w.chan (Num_procs - 1) 0 = []) :
    ∃ w', cornerCopy m n Num_procs w = some w' ∧
      w'.vector 0 = wr (w.vector 0) (segment_size m Num_procs 0) 0 0
        (- corner m n Num_procs w) ∧
      (∀ a, a ≠ 0 → w'.vector a = w.vector a) ∧
      (∀ a b, w'.chan a b = w.chan a b) ∧
      (∀ a, w'.trace a = w.trace a ++ cornerEvents Num_procs a) := by
  by_cases hP : 1 < Num_procs
  · have hroot : Num_procs - 1 ≠ 0 := by omega
    obtain ⟨w2, hw2, hv2, hc2, ht2⟩ := MPI_Recv_head
      (MPI_Send w (Num_procs - 1) 0 888 (- corner m n Num_procs w)) 0 (Num_procs - 1) 888
      (- corner m n Num_procs w) []
      (by rw [MPI_Send_chan, if_pos ⟨rfl, rfl⟩, hch hP]; rfl)
    refine ⟨w2.setVector 0 (wr (w2.vector 0) (segment_size m Num_procs 0) 0 0
      (- corner m n Num_procs w)), ?_, ?_, ?_, ?_, ?_⟩
    · unfold cornerCopy
      simp only []
      rw [if_pos hP]
      unfold corner at hw2
      rw [hw2]
      rfl
    · rw [setVector_vector, if_pos rfl, hv2, MPI_Send_vector]
    · intro a ha
      rw [setVector_vector, if_neg ha, hv2, MPI_Send_vector]
    · intro a b
      rw [setVector_chan, hc2, MPI_Send_chan]
      by_cases h : a = Num_procs - 1 ∧ b = 0
      · rw [if_pos h, h.1, h.2, hch hP]
      · rw [if_neg h, if_neg h]
    · intro a
      rw [setVector_trace, ht2, MPI_Send_trace, MPI_Send_trace]
      unfold cornerEvents
      rw [if_pos hP, if_neg (Ne.symm hroot)]
      by_cases ha : a = 0
      · rw [if_pos ha, if_pos ha, if_neg (by omega), ha]
        simp
      · rw [if_neg ha, if_neg ha]
        by_cases ha2 : a = Num_procs - 1
        · rw [if_pos ha2, if_pos ha2, ha2]
          simp
        · rw [if_neg ha2, if_neg ha2]
          simp
  · have hroot : Num_procs - 1 = 0 := by omega
    refine ⟨w.setVector 0 (wr (w.vector 0) (segment_size m Num_procs 0) 0 0
      (- rd (w.vector 0) (segment_size m Num_procs 0) (localEnd m Num_procs 0)
        ((n : Int) - 1))), ?_, ?_, ?_, ?_, ?_⟩
    · unfold cornerCopy
      simp only []
      rw [if_neg hP]
    · rw [setVector_vector, if_pos rfl]
      unfold corner
      rw [hroot]
    · intro a ha
      rw [setVector_vector, if_neg ha]
    · intro a b
      rw [setVector_chan]
    · intro a
      rw [setVector_trace]
      unfold cornerEvents
      rw [if_neg hP, List.append_nil]

theorem segment_size_pos (m Num_procs r : Nat) (hP : 1 ≤ Num_procs) (hm : Num_procs ≤ m)
    (hr : r < Num_procs) : 1 ≤ segment_size m Num_procs r := by
  rw [segment_size_eq m Num_procs r hr]; exact rows_pos m Num_procs r hP hm

/-- Global index of the last row of the timing rank. -/
theorem root_last_row (m Num_procs : Nat) (hP : 1 ≤ Num_procs) :
    offset m Num_procs (Num_procs - 1) + localEnd m Num_procs (Num_procs - 1)
      = (m : Int) - 1 := by
  have h := offset_succ m Num_procs (Num_procs - 1)
  rw [show Num_procs - 1 + 1 = Num_procs by omega, offset_total m Num_procs hP] at h
  unfold localEnd
  rw [segment_size_eq m Num_procs (Num_procs - 1) (by omega)]
  omega

/-- One pass of the iteration loop started in a `Ready` world. -/
theorem iteration_spec (m n Num_procs : Nat) (c0 : Int) (w : World)
    (hP : 1 ≤ Num_procs) (hm : Num_procs ≤ m) (hn : 1 ≤ n)
    (hw : Ready m n Num_procs c0 w) :
    ∃ w1 w', sweepAll m n Num_procs w = some w1 ∧ cornerCopy m n Num_procs w1 = some w' ∧
      iteration m n Num_procs w = some w' ∧
      (∀ a b, w1.chan a b = []) ∧
      (∀ a, a < Num_procs → ∀ (i : Int) (j : Nat), -1 ≤ i → i < segment_size m Num_procs a →
        j < n → rd (w1.vector a) (segment_size m Num_procs a) i j =
          if 1 ≤ j ∧ localStart a - 1 ≤ i
          then gridVal (shift m Num_procs c0) (offset m Num_procs a + i) j
          else rd (w.vector a) (segment_size m Num_procs a) i j) ∧
      corner m n Num_procs w1 = cornerAfterSweep m n Num_procs c0 ∧
      w'.vector 0 = wr (w1.vector 0) (segment_size m Num_procs 0) 0 0
        (- corner m n Num_procs w1) ∧
      (∀ a, a ≠ 0 → w'.vector a = w1.vector a) ∧
      Ready m n Num_procs (- cornerAfterSweep m n Num_procs c0) w' ∧
      (∀ a, w'.trace a = w.trace a ++ iterEvents n Num_procs a) := by
  obtain ⟨w1, hw1, _, hcell, hch1, htr1⟩ :=
    sweepAll_loop_spec m n Num_procs c0 w hP hm hw Num_procs (le_refl _)
  have hempty : ∀ a b, w1.chan a b = [] := by
    intro a b
    rw [hch1, if_neg (by omega)]
  obtain ⟨w', hw', hv0, hvo, hch', htr'⟩ :=
    cornerCopy_spec m n Num_procs w1 (fun _ => hempty _ _)
  obtain ⟨_, hcol, hrow⟩ := hw
  have hss0 := segment_size_pos m Num_procs 0 hP hm (by omega)
  -- the corner cell after the sweeps
  have hcorner : corner m n Num_procs w1 = cornerAfterSweep m n Num_procs c0 := by
    have hroot : Num_procs - 1 < Num_procs := by omega
    have hssr := segment_size_pos m Num_procs (Num_procs - 1) hP hm hroot
    have hlast := root_last_row m Num_procs hP
    have hst1 := localStart_le_one (Num_procs - 1)
    have hcast : ((n : Int) - 1) = ((n - 1 : Nat) : Int) := by omega
    unfold corner
    rw [hcast, hcell (Num_procs - 1) hroot _ (n - 1) (by unfold localEnd; omega)
      (by unfold localEnd; omega) (by omega)]
    unfold cornerAfterSweep
    by_cases hn1 : n = 1
    · rw [if_neg (by omega), if_pos hn1]
      have hz : n - 1 = 0 := by omega
      rw [hz]
      have := hcol (Num_procs - 1) hroot (localEnd m Num_procs (Num_procs - 1))
        (by unfold localEnd; omega) (by unfold localEnd; omega)
      rw [Nat.cast_zero, this, hlast]
      by_cases hal : Num_procs - 1 = 0 ∧ localEnd m Num_procs (Num_procs - 1) = 0
      · rw [if_pos hal]
        have h1 := hal.1
        have h2 := hal.2
        rw [h1] at h2 hlast
        rw [h2, offset_zero] at hlast
        rw [if_pos (by omega)]
      · rw [if_neg hal]
        by_cases hm1 : m = 1
        · exfalso
          apply hal
          have hP1 : Num_procs = 1 := by omega
          subst hm1
          subst hP1
          rw [show 1 - 1 = 0 from rfl, offset_zero] at hlast
          exact ⟨rfl, by simpa using hlast⟩
        · rw [if_neg hm1]
    · rw [if_pos ⟨by omega, by unfold localEnd; omega⟩, if_neg hn1, hlast]
      unfold gridVal
      by_cases hm1 : (m : Int) - 1 = 0
      · rw [if_pos hm1]
        unfold shift
        rw [if_neg (by omega)]
        omega
      · rw [if_neg hm1]
        omega
  refine ⟨w1, w', hw1, hw', ?_, hempty, hcell, hcorner, hv0, hvo, ?_, ?_⟩
  · unfold iteration sweepAll
    rw [hw1]
    exact hw'
  · refine ⟨?_, ?_, ?_⟩
    · intro a b
      rw [hch', hempty]
    · intro r hr i hi hi'
      have hold := hcell r hr i 0 hi hi' (by omega)
      rw [if_neg (by omega)] at hold
      by_cases hr0 : r = 0
      · subst hr0
        rw [hv0, rd_wr _ _ (by omega) hss0 hi hi']
        by_cases hi0 : i = 0
        · rw [if_pos ⟨hi0, rfl⟩, if_pos ⟨rfl, hi0⟩, hcorner]
        · rw [if_neg (fun h => hi0 h.1), if_neg (fun h => hi0 h.2)]
          have := hcol 0 hr i hi hi'
          rw [if_neg (fun h => hi0 h.2)] at this
          rw [← this]
          exact hold
      · rw [hvo r hr0, if_neg (fun h => hr0 h.1)]
        have := hcol r hr i hi hi'
        rw [if_neg (fun h => hr0 h.1)] at this
        rw [← this]
        exact hold
    · intro j hj hjn
      rw [hv0, rd_wr _ _ (by omega) hss0 (by omega) hss0, if_neg (by omega)]
      have := hcell 0 (by omega) 0 j (by omega) hss0 hjn
      rw [if_pos ⟨hj, by rw [localStart_zero]; omega⟩] at this
      rw [this, offset_zero]
      unfold gridVal
      rw [if_pos (by omega)]
  · intro a
    rw [htr', htr1]
    unfold iterEvents
    by_cases ha : a < Num_procs
    · rw [if_pos ha, if_pos ha, List.append_assoc]
    · rw [if_neg ha, if_neg ha]
      simp

/-- The world at the start of the iteration loop is `Ready` with origin cell 0. -/
theorem initWorld_ready (m n Num_procs : Nat) (hP : 1 ≤ Num_procs) (hm : Num_procs ≤ m)
    (hn : 1 ≤ n) : Ready m n Num_procs 0 (initWorld m n Num_procs) := by
  refine ⟨fun _ _ => rfl, ?_, ?_⟩
  · intro r hr i hi hi'
    show rd (initVector m n Num_procs r) _ i 0 = _
    have := rd_initVector m n Num_procs r hr hm i 0 hi hi' (by omega)
    rw [if_pos rfl, slices_start m Num_procs r hr] at this
    rw [Nat.cast_zero] at this
    rw [this]
    by_cases h : r = 0 ∧ i = 0
    · rw [if_pos h, h.1, h.2, offset_zero]; rfl
    · rw [if_neg h]
  · intro j hj hjn
    show rd (initVector m n Num_procs 0) _ 0 j = _
    have hpos := segment_size_pos m Num_procs 0 (by omega) hm (by omega)
    rw [rd_initVector m n Num_procs 0 (by omega) hm 0 j (by omega) hpos hjn,
      if_neg (by omega), if_pos ⟨rfl, rfl⟩]

theorem mult_zero (m n Num_procs : Nat) : mult m n Num_procs 0 = 0 := by
  unfold mult; split_ifs <;> simp

theorem mult_regular (m n Num_procs k : Nat) (h : Num_procs < m ∧ 2 ≤ n) :
    mult m n Num_procs k = k := by
  unfold mult; rw [if_pos h]

theorem mult_degenerate (m n Num_procs k : Nat) (h : ¬ (Num_procs < m ∧ 2 ≤ n)) :
    mult m n Num_procs (k + 1) = 1 := by
  unfold mult; rw [if_neg h]; omega

theorem cornerAfterSweep_mult (m n Num_procs k : Nat) (_hP : 1 ≤ Num_procs)
    (hm : Num_procs ≤ m) (hn : 1 ≤ n) :
    cornerAfterSweep m n Num_procs (- ((mult m n Num_procs k : Int) * ((m : Int) + n - 2)))
      = (mult m n Num_procs (k + 1) : Int) * ((m : Int) + n - 2) := by
  by_cases hreg : Num_procs < m ∧ 2 ≤ n
  · rw [mult_regular _ _ _ _ hreg, mult_regular _ _ _ _ hreg]
    unfold cornerAfterSweep shift
    rw [if_neg (by omega), if_pos hreg.1]
    push_cast
    ring
  · rw [mult_degenerate _ _ _ _ hreg]
    unfold cornerAfterSweep shift
    by_cases hn1 : n = 1
    · subst hn1
      rw [if_pos rfl]
      by_cases hm1 : m = 1
      · subst hm1
        rw [if_pos rfl]
        norm_num
      · rw [if_neg hm1]
        push_cast
        ring
    · rw [if_neg hn1, if_neg (fun h => hreg ⟨h, by omega⟩)]
      push_cast
      ring

theorem run_succ (m n Num_procs k : Nat) :
    run m n Num_procs (k + 1) = (run m n Num_procs k).bind (iteration m n Num_procs) := rfl

/-- The world after `k` passes of the iteration loop: the loop completes, the
world is `Ready` for the next pass, every rank has posted `k` rounds of calls,
and the corner cell of the timing rank holds `mult k * (m+n-2)`. -/
theorem run_spec (m n Num_procs : Nat) (hP : 1 ≤ Num_procs) (hm : Num_procs ≤ m)
    (hn : 1 ≤ n) :
    ∀ k, ∃ w, run m n Num_procs k = some w ∧
      Ready m n Num_procs (- ((mult m n Num_procs k : Int) * ((m : Int) + n - 2))) w ∧
      (∀ a, w.trace a = runEvents n Num_procs a k) ∧
      (1 ≤ k → corner m n Num_procs w
        = (mult m n Num_procs k : Int) * ((m : Int) + n - 2)) := by
  intro k
  induction k with
  | zero =>
    refine ⟨initWorld m n Num_procs, rfl, ?_, fun _ => rfl, fun h => absurd h (by omega)⟩
    rw [mult_zero]
    simpa using initWorld_ready m n Num_procs hP hm hn
  | succ k ih =>
    obtain ⟨w, hrun, hready, htr, _⟩ := ih
    obtain ⟨w1, w', _, _, hit, _, _, hcorner, hv0, hvo, hready', htr'⟩ :=
      iteration_spec m n Num_procs _ w hP hm hn hready
    rw [cornerAfterSweep_mult m n Num_procs k hP hm hn] at hready' hcorner
    refine ⟨w', ?_, hready', ?_, fun _ => ?_⟩
    · rw [run_succ, hrun]; exact hit
    · intro a
      rw [htr' a, htr a]; rfl
    · by_cases hroot : Num_procs - 1 = 0
      · have hP1 : Num_procs = 1 := by omega
        subst hP1
        have hss0 := segment_size_pos m 1 0 hP hm (by omega)
        unfold corner
        rw [show 1 - 1 = 0 from rfl, hv0,
          rd_wr _ _ (by omega) hss0 (by unfold localEnd; omega) (by unfold localEnd; omega)]
        by_cases hal : localEnd m 1 0 = 0 ∧ (n : Int) - 1 = 0
        · rw [if_pos hal]
          have hlast := root_last_row m 1 hP
          rw [show 1 - 1 = 0 from rfl, offset_zero, hal.1] at hlast
          have hm1 : m = 1 := by omega
          have hn1 : n = 1 := by omega
          subst hm1
          subst hn1
          rw [hcorner]
          norm_num
        · rw [if_neg hal]
          exact hcorner
      · unfold corner
        rw [hvo _ hroot]
        exact hcorner

/-! ## Facts about the posted calls -/

theorem sendTags_append (d : Nat) (l1 l2 : List Event) :
    sendTags d (l1 ++ l2) = sendTags d l1 ++ sendTags d l2 := by
  induction l1 with
  | nil => rfl
  | cons e l ih =>
    cases e with
    | send d' t =>
      simp only [List.cons_append, sendTags]
      split_ifs <;> simp [ih]
    | recv s t =>
      simp only [List.cons_append, sendTags]
      exact ih

theorem recvTags_append (s : Nat) (l1 l2 : List Event) :
    recvTags s (l1 ++ l2) = recvTags s l1 ++ recvTags s l2 := by
  induction l1 with
  | nil => rfl
  | cons e l ih =>
    cases e with
    | send d' t =>
      simp only [List.cons_append, recvTags]
      exact ih
    | recv s' t =>
      simp only [List.cons_append, recvTags]
      split_ifs <;> simp [ih]

theorem sendTags_sweepEvents (Num_procs r d lo cnt : Nat) :
    sendTags d (sweepEvents Num_procs r lo cnt)
      = if r ≠ Num_procs - 1 ∧ d = r + 1 then columnTags lo cnt else [] := by
  induction cnt generalizing lo with
  | zero => simp [sweepEvents, sendTags, columnTags]
  | succ c ih =>
    rw [sweepEvents, sendTags_append, sendTags_append, ih (lo + 1)]
    by_cases h0 : 0 < r <;> by_cases h1 : r ≠ Num_procs - 1 <;> by_cases h2 : d = r + 1 <;>
      simp [h0, h1, h2, sendTags, columnTags] <;> omega

theorem recvTags_sweepEvents (Num_procs r s lo cnt : Nat) :
    recvTags s (sweepEvents Num_procs r lo cnt)
      = if 0 < r ∧ s = r - 1 then columnTags lo cnt else [] := by
  induction cnt generalizing lo with
  | zero => simp [sweepEvents, recvTags, columnTags]
  | succ c ih =>
    rw [sweepEvents, recvTags_append, recvTags_append, ih (lo + 1)]
    by_cases h0 : 0 < r <;> by_cases h1 : r ≠ Num_procs - 1 <;> by_cases h2 : s = r - 1 <;>
      simp [h0, h1, h2, recvTags, columnTags] <;> omega

theorem sendTags_cornerEvents (Num_procs r d : Nat) :
    sendTags d (cornerEvents Num_procs r)
      = if 1 < Num_procs ∧ r = Num_procs - 1 ∧ d = 0 then [888] else [] := by
  unfold cornerEvents
  by_cases hP : 1 < Num_procs
  · rw [if_pos hP, sendTags_append]
    have e2 : sendTags d (if r = 0 then [Event.recv (Num_procs - 1) 888] else []) = [] := by
      split_ifs <;> rfl
    rw [e2, List.append_nil]
    by_cases h1 : r = Num_procs - 1
    · rw [if_pos h1]
      by_cases h3 : d = 0
      · rw [if_pos ⟨hP, h1, h3⟩, h3]; rfl
      · rw [if_neg (fun h => h3 h.2.2)]
        simp only [sendTags]
        rw [if_neg (fun h => h3 h.symm)]
    · rw [if_neg h1, if_neg (fun h => h1 h.2.1)]; rfl
  · rw [if_neg hP, if_neg (fun h => hP h.1)]; rfl

theorem recvTags_cornerEvents (Num_procs r s : Nat) :
    recvTags s (cornerEvents Num_procs r)
      = if 1 < Num_procs ∧ r = 0 ∧ s = Num_procs - 1 then [888] else [] := by
  unfold cornerEvents
  by_cases hP : 1 < Num_procs
  · rw [if_pos hP, recvTags_append]
    have e1 : recvTags s (if r = Num_procs - 1 then [Event.send 0 888] else []) = [] := by
      split_ifs <;> rfl
    rw [e1, List.nil_append]
    by_cases h1 : r = 0
    · rw [if_pos h1]
      by_cases h3 : s = Num_procs - 1
      · rw [if_pos ⟨hP, h1, h3⟩, h3]
        simp only [recvTags]
        rfl
      · rw [if_neg (fun h => h3 h.2.2)]
        simp only [recvTags]
        rw [if_neg (fun h => h3 h.symm)]
    · rw [if_neg h1, if_neg (fun h => h1 h.2.1)]; rfl
  · rw [if_neg hP, if_neg (fun h => hP h.1)]; rfl

/-! ## Results on the slice boundaries -/

theorem offset_cover (m Num_procs : Nat) (k : Nat) (g : Int) (h0 : 0 ≤ g)
    (hg : g < offset m Num_procs k) :
    ∃ r, r < k ∧ offset m Num_procs r ≤ g ∧ g < offset m Num_procs (r + 1) := by
  induction k with
  | zero => rw [offset_zero] at hg; omega
  | succ k ih =>
    by_cases h : g < offset m Num_procs k
    · obtain ⟨r, hr, h1, h2⟩ := ih h
      exact ⟨r, by omega, h1, h2⟩
    · exact ⟨k, by omega, by omega, hg⟩

theorem offset_unique (m Num_procs : Nat) (r r' : Nat) (g : Int)
    (h1 : offset m Num_procs r ≤ g) (h2 : g < offset m Num_procs (r + 1))
    (h1' : offset m Num_procs r' ≤ g) (h2' : g < offset m Num_procs (r' + 1)) : r' = r := by
  rcases lt_trichotomy r r' with h | h | h
  · have := offset_mono m Num_procs (show r + 1 ≤ r' by omega)
    omega
  · exact h.symm
  · have := offset_mono m Num_procs (show r' + 1 ≤ r by omega)
    omega

/-- C3: for `Num_procs ≥ 1` and `m ≥ Num_procs` the row ranges computed by the
slice loop tile `[0,m)`: `start[0] = 0`, `start[r+1] = end[r] + 1` for `r < Num_procs-1`,
`end[Num_procs-1] = m-1`; the ranges are non-empty, ordered by rank and pairwise
disjoint, and every row of `[0,m)` lies in the range of exactly one rank. -/
theorem slices_tile (m Num_procs : Nat) (hP : 1 ≤ Num_procs) (hm : Num_procs ≤ m) :
    (slices m Num_procs).start 0 = 0 ∧
    (∀ r, r + 1 < Num_procs →
      (slices m Num_procs).start (r + 1) = (slices m Num_procs).end_ r + 1) ∧
    (slices m Num_procs).end_ (Num_procs - 1) = (m : Int) - 1 ∧
    (∀ r, r < Num_procs → (slices m Num_procs).start r ≤ (slices m Num_procs).end_ r) ∧
    (∀ r r', r < r' → r' < Num_procs →
      (slices m Num_procs).end_ r < (slices m Num_procs).start r') ∧
    (∀ g : Int, 0 ≤ g → g < m → ∃ r, r < Num_procs ∧
      (slices m Num_procs).start r ≤ g ∧ g ≤ (slices m Num_procs).end_ r ∧
      ∀ r', r' < Num_procs → (slices m Num_procs).start r' ≤ g →
        g ≤ (slices m Num_procs).end_ r' → r' = r) := by
  refine ⟨?_, ?_, ?_, ?_, ?_, ?_⟩
  · rw [slices_start m Num_procs 0 (by omega), offset_zero]
  · intro r hr
    rw [slices_start m Num_procs (r + 1) hr, slices_end m Num_procs r (by omega)]
    ring
  · rw [slices_end m Num_procs (Num_procs - 1) (by omega),
      show Num_procs - 1 + 1 = Num_procs by omega, offset_total m Num_procs hP]
  · intro r hr
    rw [slices_start m Num_procs r hr, slices_end m Num_procs r hr, offset_succ]
    have := rows_pos m Num_procs r hP hm
    omega
  · intro r r' hlt hr'
    rw [slices_start m Num_procs r' hr', slices_end m Num_procs r (by omega)]
    have := offset_mono m Num_procs (show r + 1 ≤ r' by omega)
    omega
  · intro g h0 hg
    obtain ⟨r, hr, h1, h2⟩ := offset_cover m Num_procs Num_procs g h0
      (by rw [offset_total m Num_procs hP]; exact hg)
    refine ⟨r, hr, ?_, ?_, ?_⟩
    · rw [slices_start m Num_procs r hr]; exact h1
    · rw [slices_end m Num_procs r hr]; omega
    · intro r' hr' h1' h2'
      rw [slices_start m Num_procs r' hr'] at h1'
      rw [slices_end m Num_procs r' hr'] at h2'
      exact offset_unique m Num_procs r r' g h1 h2 h1' (by omega)

theorem slices_tile_witness :
    (slices 5 3).start 0 = 0 ∧ (slices 5 3).end_ (3 - 1) = ((5 : Nat) : Int) - 1 :=
  ⟨(slices_tile 5 3 (by decide) (by decide)).1, (slices_tile 5 3 (by decide) (by decide)).2.2.1⟩

/-- C4: for `Num_procs ≥ 1`, `m ≥ Num_procs` and every rank `r < Num_procs` the size
`end[r]-start[r]+1` is `(m div Num_procs)+1` when `r < m mod Num_procs` and
`m div Num_procs` otherwise; any two sizes differ by at most one, a lower rank
never has the smaller size, and every rank owns at least one row. -/
theorem slices_sizes (m Num_procs : Nat) (hP : 1 ≤ Num_procs) (hm : Num_procs ≤ m) :
    (∀ r, r < Num_procs →
      (slices m Num_procs).end_ r - (slices m Num_procs).start r + 1
        = if r < m % Num_procs then ((m / Num_procs : Nat) : Int) + 1
          else ((m / Num_procs : Nat) : Int)) ∧
    (∀ r r', r < Num_procs → r' < Num_procs →
      segment_size m Num_procs r - segment_size m Num_procs r' ≤ 1) ∧
    (∀ r r', r ≤ r' → r' < Num_procs →
      segment_size m Num_procs r' ≤ segment_size m Num_procs r) ∧
    (∀ r, r < Num_procs → 1 ≤ segment_size m Num_procs r) := by
  refine ⟨?_, ?_, ?_, ?_⟩
  · intro r hr
    exact segment_size_eq m Num_procs r hr
  · intro r r' hr hr'
    rw [segment_size_eq m Num_procs r hr, segment_size_eq m Num_procs r' hr']
    unfold rows
    split_ifs <;> omega
  · intro r r' hle hr'
    rw [segment_size_eq m Num_procs r (by omega), segment_size_eq m Num_procs r' hr']
    unfold rows
    split_ifs <;> omega
  · intro r hr
    exact segment_size_pos m Num_procs r hP hm hr

theorem slices_sizes_witness : (1 : Int) ≤ segment_size 5 3 2 :=
  (slices_sizes 5 3 (by decide) (by decide)).2.2.2 2 (by decide)

/-! ## Results on the iteration loop -/

/-- The iteration loop completes for every valid input, and the corner cell of the
timing rank then holds `mult iterations * (m+n-2)`. -/
theorem corner_closed_form (m n Num_procs iterations : Nat) (hP : 1 ≤ Num_procs)
    (hm : Num_procs ≤ m) (hn : 1 ≤ n) (hit : 1 ≤ iterations) :
    ∃ w, run m n Num_procs iterations = some w ∧
      corner m n Num_procs w = (mult m n Num_procs iterations : Int) * ((m : Int) + n - 2) := by
  obtain ⟨w, h1, _, _, h4⟩ := run_spec m n Num_procs hP hm hn iterations
  exact ⟨w, h1, h4 hit⟩

/-- For which valid inputs the corner cell equals the verification value. -/
theorem corner_eq_expected_iff (m n Num_procs iterations : Nat) (hP : 1 ≤ Num_procs)
    (hm : Num_procs ≤ m) (hn : 1 ≤ n) (hit : 1 ≤ iterations) :
    ∃ w, run m n Num_procs iterations = some w ∧
      (corner m n Num_procs w = expected m n iterations ↔
        (iterations = 1 ∨ (Num_procs < m ∧ 2 ≤ n) ∨ (m = 1 ∧ n = 1))) := by
  obtain ⟨w, h1, h2⟩ := corner_closed_form m n Num_procs iterations hP hm hn hit
  refine ⟨w, h1, ?_⟩
  rw [h2]
  unfold expected
  by_cases hreg : Num_procs < m ∧ 2 ≤ n
  · rw [mult_regular _ _ _ _ hreg]
    exact ⟨fun _ => Or.inr (Or.inl hreg), fun _ => rfl⟩
  · obtain ⟨k, rfl⟩ : ∃ k, iterations = k + 1 := ⟨iterations - 1, by omega⟩
    rw [mult_degenerate _ _ _ _ hreg]
    constructor
    · intro h
      by_cases hk : k = 0
      · left; omega
      · right; right
        have h3 : ((k : Int)) * ((m : Int) + n - 2) = 0 := by push_cast at h; linarith
        rcases mul_eq_zero.1 h3 with h4 | h4
        · omega
        · omega
    · intro h
      rcases h with h | h | h
      · have : k = 0 := by omega
        subst this; rfl
      · exact absurd h hreg
      · rw [h.1, h.2]; norm_num

/-- C1 (evaluation at the failing input): with `Num_procs = 2`, `m = 2`, `n = 2`,
`iterations = 2` the input tests pass and the iteration loop completes, but the
corner cell of the timing rank holds 2 while the verification value
`iterations*(m+n-2)` is 4. -/
theorem corner_misses_expected_when_m_eq_Num_procs :
    inputTests 4 (fun _ => 2) 2 = 0 ∧
    (run 2 2 2 2).map (corner 2 2 2) = some 2 ∧ expected 2 2 2 = 4 := by
  decide

/-- C2 (evaluation at the failing input): for `m = 2`, `n = 2`, `iterations = 2`
the corner cell of the timing rank holds 4 when run with one process and 2 when
run with `Num_procs = 2 = m` processes. -/
theorem corner_depends_on_Num_procs :
    (run 2 2 1 2).map (corner 2 2 1) = some 4 ∧
    (run 2 2 2 2).map (corner 2 2 2) = some 2 := by
  decide

/-- C5: for a single iteration and every `Num_procs ≥ 1`, `m ≥ Num_procs`, `n ≥ 1` the
iteration loop completes and the corner cell of the timing rank holds `m+n-2`. -/
theorem single_iteration_corner (m n Num_procs : Nat) (hP : 1 ≤ Num_procs)
    (hm : Num_procs ≤ m) (hn : 1 ≤ n) :
    ∃ w, run m n Num_procs 1 = some w ∧ corner m n Num_procs w = (m : Int) + n - 2 := by
  obtain ⟨w, h1, h2⟩ := corner_closed_form m n Num_procs 1 hP hm hn (le_refl _)
  refine ⟨w, h1, ?_⟩
  rw [h2]
  have : mult m n Num_procs 1 = 1 := by
    unfold mult; split_ifs <;> rfl
  rw [this]
  push_cast
  ring

/-- C5, the scenario `m = 4`, `n = 4`, `Num_procs = 2`, one iteration: corner value 6. -/
theorem single_iteration_corner_witness :
    ∃ w, run 4 4 2 1 = some w ∧ corner 4 4 2 w = 6 := by
  obtain ⟨w, h1, h2⟩ := single_iteration_corner 4 4 2 (by decide) (by decide) (by decide)
  exact ⟨w, h1, by rw [h2]; norm_num⟩

/-- C7 (evaluation at the failing input): with `Num_procs = 2`, `m = 2`, `n = 2`, at
the end of the sweeps of the second iteration the ghost slot `ARRAY(-1,0)` of
rank 1 holds 0 while the last owned row of rank 0 holds -2 in column 0. -/
theorem ghost_column_zero_stale :
    ((run 2 2 2 1).bind (sweepAll 2 2 2)).map (fun w =>
      (rd (w.vector 1) (segment_size 2 2 1) (-1) 0,
        rd (w.vector 0) (segment_size 2 2 0) (localEnd 2 2 0) 0)) = some (0, -2) := by
  decide

/-- The sweeps of pass `k+1` and the corner copy that follows them. -/
theorem pass_spec (m n Num_procs k : Nat) (hP : 1 ≤ Num_procs) (hm : Num_procs ≤ m)
    (hn : 1 ≤ n) :
    ∃ w w1 w2, run m n Num_procs k = some w ∧
      Ready m n Num_procs (- ((mult m n Num_procs k : Int) * ((m : Int) + n - 2))) w ∧
      sweepAll m n Num_procs w = some w1 ∧ cornerCopy m n Num_procs w1 = some w2 ∧
      run m n Num_procs (k + 1) = some w2 ∧
      (∀ a b, w1.chan a b = []) ∧
      (∀ a, a < Num_procs → ∀ (i : Int) (j : Nat), -1 ≤ i → i < segment_size m Num_procs a →
        j < n → rd (w1.vector a) (segment_size m Num_procs a) i j =
          if 1 ≤ j ∧ localStart a - 1 ≤ i
          then gridVal (shift m Num_procs (- ((mult m n Num_procs k : Int) * ((m : Int) + n - 2))))
            (offset m Num_procs a + i) j
          else rd (w.vector a) (segment_size m Num_procs a) i j) ∧
      corner m n Num_procs w1 = (mult m n Num_procs (k + 1) : Int) * ((m : Int) + n - 2) ∧
      corner m n Num_procs w2 = (mult m n Num_procs (k + 1) : Int) * ((m : Int) + n - 2) ∧
      w2.vector 0 = wr (w1.vector 0) (segment_size m Num_procs 0) 0 0
        (- corner m n Num_procs w1) ∧
      (∀ a, a ≠ 0 → w2.vector a = w1.vector a) ∧
      (∀ a b, w2.chan a b = []) := by
  obtain ⟨w, hrun, hready, _, _⟩ := run_spec m n Num_procs hP hm hn k
  obtain ⟨w1, w2, hsw, hcc, hit, hempty, hcell, hcorner, hv0, hvo, hready2, _⟩ :=
    iteration_spec m n Num_procs _ w hP hm hn hready
  rw [cornerAfterSweep_mult m n Num_procs k hP hm hn] at hcorner
  have hrun2 : run m n Num_procs (k + 1) = some w2 := by
    rw [run_succ, hrun]; exact hit
  obtain ⟨w2', hrun2', _, _, hc2⟩ := run_spec m n Num_procs hP hm hn (k + 1)
  have hw2 : w2' = w2 := by
    rw [hrun2] at hrun2'
    exact (Option.some.inj hrun2').symm
  rw [hw2] at hc2
  exact ⟨w, w1, w2, hrun, hready, hsw, hcc, hrun2, hempty, hcell, hcorner, hc2 (by omega),
    hv0, hvo, hready2.1⟩

/-- C8: in every pass of the iteration loop the corner copy completes; after it
the origin cell of rank 0 (row `start-1 = 0`, column 0) holds the negation of the
corner cell `ARRAY(end,n-1)` of the timing rank; the write is
`ARRAY(0,0) = -ARRAY(end,n-1)` on rank 0 whether `Num_procs = 1` (local
assignment) or `Num_procs > 1` (tag-888 message); no other cell of any rank
changes and no message is left in a queue. -/
theorem cornerCopy_dependency (m n Num_procs k : Nat) (hP : 1 ≤ Num_procs)
    (hm : Num_procs ≤ m) (hn : 1 ≤ n) :
    ∃ w1 w2, (run m n Num_procs k).bind (sweepAll m n Num_procs) = some w1 ∧
      cornerCopy m n Num_procs w1 = some w2 ∧ run m n Num_procs (k + 1) = some w2 ∧
      rd (w2.vector 0) (segment_size m Num_procs 0) (localStart 0 - 1) 0
        = - corner m n Num_procs w2 ∧
      corner m n Num_procs w2 = corner m n Num_procs w1 ∧
      w2.vector 0 = wr (w1.vector 0) (segment_size m Num_procs 0) 0 0
        (- rd (w1.vector (Num_procs - 1)) (segment_size m Num_procs (Num_procs - 1))
          (localEnd m Num_procs (Num_procs - 1)) ((n : Int) - 1)) ∧
      (∀ a, a ≠ 0 → w2.vector a = w1.vector a) ∧
      (∀ (i j : Int), -1 ≤ i → i < segment_size m Num_procs 0 → ¬ (i = 0 ∧ j = 0) →
        rd (w2.vector 0) (segment_size m Num_procs 0) i j
          = rd (w1.vector 0) (segment_size m Num_procs 0) i j) ∧
      (∀ a b, w2.chan a b = []) := by
  obtain ⟨w, w1, w2, hrun, _, hsw, hcc, hrun2, _, _, hc1, hc2, hv0, hvo, hch⟩ :=
    pass_spec m n Num_procs k hP hm hn
  have hss0 := segment_size_pos m Num_procs 0 hP hm (by omega)
  refine ⟨w1, w2, ?_, hcc, hrun2, ?_, ?_, hv0, hvo, ?_, hch⟩
  · rw [hrun]; exact hsw
  · rw [hv0, localStart_zero, show ((1 : Int) - 1) = 0 by norm_num, rd_wr_same, hc1, hc2]
  · rw [hc1, hc2]
  · intro i j hi hi' hne
    rw [hv0, rd_wr_other _ _ (by omega) hss0 hi hi' hne]

theorem cornerCopy_dependency_witness :
    ∃ w1 w2, (run 4 4 2 0).bind (sweepAll 4 4 2) = some w1 ∧
      cornerCopy 4 4 2 w1 = some w2 ∧ run 4 4 2 (0 + 1) = some w2 ∧
      rd (w2.vector 0) (segment_size 4 2 0) (localStart 0 - 1) 0 = - corner 4 4 2 w2 := by
  obtain ⟨w1, w2, h1, h2, h3, h4, _⟩ :=
    cornerCopy_dependency 4 4 2 0 (by decide) (by decide) (by decide)
  exact ⟨w1, w2, h1, h2, h3, h4⟩

/-! ## Results on the posted calls -/

theorem sendTags_runEvents_right (n Num_procs r k : Nat) (hr : r + 1 < Num_procs) :
    sendTags (r + 1) (runEvents n Num_procs r k) = rounds (columnTags 1 (n - 1)) k := by
  induction k with
  | zero => rfl
  | succ k ih =>
    rw [runEvents, sendTags_append, ih, rounds]
    unfold iterEvents
    rw [if_pos (by omega), sendTags_append, sendTags_sweepEvents, sendTags_cornerEvents,
      if_pos ⟨by omega, rfl⟩, if_neg (by omega), List.append_nil]

theorem recvTags_runEvents_left (n Num_procs r k : Nat) (hr : r + 1 < Num_procs) :
    recvTags r (runEvents n Num_procs (r + 1) k) = rounds (columnTags 1 (n - 1)) k := by
  induction k with
  | zero => rfl
  | succ k ih =>
    rw [runEvents, recvTags_append, ih, rounds]
    unfold iterEvents
    rw [if_pos hr, recvTags_append, recvTags_sweepEvents, recvTags_cornerEvents,
      if_pos ⟨by omega, by omega⟩, if_neg (by omega), List.append_nil]

theorem sendTags_iterEvents_root (n Num_procs : Nat) (hP : 1 ≤ Num_procs) :
    sendTags 0 (iterEvents n Num_procs (Num_procs - 1))
      = if 1 < Num_procs then [888] else [] := by
  unfold iterEvents
  rw [if_pos (show Num_procs - 1 < Num_procs by omega), sendTags_append,
    sendTags_sweepEvents, sendTags_cornerEvents, if_neg (fun h => h.1 rfl), List.nil_append]
  by_cases h : 1 < Num_procs
  · rw [if_pos ⟨h, rfl, rfl⟩, if_pos h]
  · rw [if_neg (fun h' => h h'.1), if_neg h]

theorem recvTags_iterEvents_zero (n Num_procs : Nat) (hP : 1 ≤ Num_procs) :
    recvTags (Num_procs - 1) (iterEvents n Num_procs 0)
      = if 1 < Num_procs then [888] else [] := by
  unfold iterEvents
  rw [if_pos (show 0 < Num_procs by omega), recvTags_append,
    recvTags_sweepEvents, recvTags_cornerEvents, if_neg (fun h => absurd h.1 (by omega)),
    List.nil_append]
  by_cases h : 1 < Num_procs
  · rw [if_pos ⟨h, rfl, rfl⟩, if_pos h]
  · rw [if_neg (fun h' => h h'.1), if_neg h]

theorem sendTags_runEvents_root (n Num_procs k : Nat) (hP : 1 ≤ Num_procs) :
    sendTags 0 (runEvents n Num_procs (Num_procs - 1) k)
      = List.replicate (if 1 < Num_procs then k else 0) 888 := by
  induction k with
  | zero => simp [runEvents, sendTags]
  | succ k ih =>
    rw [runEvents, sendTags_append, ih, sendTags_iterEvents_root n Num_procs hP]
    by_cases h : 1 < Num_procs
    · simp only [if_pos h]
      rw [List.replicate_succ']
    · simp only [if_neg h]
      rfl

theorem recvTags_runEvents_zero (n Num_procs k : Nat) (hP : 1 ≤ Num_procs) :
    recvTags (Num_procs - 1) (runEvents n Num_procs 0 k)
      = List.replicate (if 1 < Num_procs then k else 0) 888 := by
  induction k with
  | zero => simp [runEvents, recvTags]
  | succ k ih =>
    rw [runEvents, recvTags_append, ih, recvTags_iterEvents_zero n Num_procs hP]
    by_cases h : 1 < Num_procs
    · simp only [if_pos h]
      rw [List.replicate_succ']
    · simp only [if_neg h]
      rfl

/-- C9: over a full run of `iterations` passes on `Num_procs` ranks the iteration
loop completes with every queue empty; for every adjacent pair `(r, r+1)` the
tags of the sends of rank `r` to rank `r+1` are, in order, the tags of the
receives rank `r+1` posts from rank `r`, namely the tags `1..n-1` once per pass;
and the tag-888 sends of rank `Num_procs-1` to rank 0 are as many as the tag-888
receives rank 0 posts from it: `iterations` when `Num_procs > 1`, none when
`Num_procs = 1`. -/
theorem channel_balance (m n Num_procs iterations : Nat) (hP : 1 ≤ Num_procs)
    (hm : Num_procs ≤ m) (hn : 1 ≤ n) :
    ∃ w, run m n Num_procs iterations = some w ∧
      (∀ a b, w.chan a b = []) ∧
      (∀ r, r + 1 < Num_procs →
        sendTags (r + 1) (w.trace r) = recvTags r (w.trace (r + 1)) ∧
        sendTags (r + 1) (w.trace r) = rounds (columnTags 1 (n - 1)) iterations) ∧
      sendTags 0 (w.trace (Num_procs - 1)) = recvTags (Num_procs - 1) (w.trace 0) ∧
      sendTags 0 (w.trace (Num_procs - 1))
        = List.replicate (if 1 < Num_procs then iterations else 0) 888 := by
  obtain ⟨w, hrun, hready, htr, _⟩ := run_spec m n Num_procs hP hm hn iterations
  refine ⟨w, hrun, hready.1, ?_, ?_, ?_⟩
  · intro r hr
    rw [htr r, htr (r + 1), sendTags_runEvents_right n Num_procs r iterations hr,
      recvTags_runEvents_left n Num_procs r iterations hr]
    exact ⟨rfl, rfl⟩
  · rw [htr, htr, sendTags_runEvents_root n Num_procs iterations hP,
      recvTags_runEvents_zero n Num_procs iterations hP]
  · rw [htr, sendTags_runEvents_root n Num_procs iterations hP]

theorem channel_balance_witness :
    ∃ w, run 4 4 2 3 = some w ∧ (∀ a b, w.chan a b = []) ∧
      sendTags 1 (w.trace 0) = [1, 2, 3, 1, 2, 3, 1, 2, 3] ∧
      recvTags 0 (w.trace 1) = [1, 2, 3, 1, 2, 3, 1, 2, 3] ∧
      sendTags 0 (w.trace 1) = [888, 888, 888] ∧
      recvTags 1 (w.trace 0) = [888, 888, 888] := by
  obtain ⟨w, h1, h2, h3, h4, h5⟩ :=
    channel_balance 4 4 2 3 (by decide) (by decide) (by decide)
  have h6 := h3 0 (by decide)
  refine ⟨w, h1, h2, ?_, ?_, ?_, ?_⟩
  · rw [h6.2]; rfl
  · rw [← h6.1, h6.2]; rfl
  · exact h5
  · rw [← h4]; exact h5

/-! ## Results on the input tests -/

theorem bail_out_iff (Num_procs : Nat) (error : Nat → Int) :
    bail_out Num_procs error = true ↔ ∃ r, r < Num_procs ∧ error r ≠ 0 := by
  unfold bail_out
  simp [List.any_eq_true]

/-- C10: the input tests of the root rank raise the error flag exactly when the
argument count is not 4 (three positional arguments), or `iterations < 1`, or
`m < 1`, or `n < 1`, or `m < Num_procs`, and leave it 0 otherwise; the flag goes
to `bail_out` before any slice is computed, any buffer is set up or any message
is sent, so the ranks leave with a failure exactly when the flag is raised; in
particular `m = 2` on 4 processes is rejected. -/
theorem inputTests_spec (argc : Int) (arg : Nat → Int) (Num_procs : Nat)
    (hP : 1 ≤ Num_procs) :
    (inputTests argc arg Num_procs = 1 ↔
      (argc ≠ 4 ∨ arg 1 < 1 ∨ arg 2 < 1 ∨ arg 3 < 1 ∨ arg 2 < (Num_procs : Int))) ∧
    (inputTests argc arg Num_procs ≠ 1 → inputTests argc arg Num_procs = 0) ∧
    (mainLoop argc arg Num_procs = Exit.failure ↔ inputTests argc arg Num_procs = 1) ∧
    (argc = 4 → arg 2 = 2 → Num_procs = 4 → mainLoop argc arg Num_procs = Exit.failure) := by
  have hval : inputTests argc arg Num_procs = 1 ∨ inputTests argc arg Num_procs = 0 := by
    unfold inputTests
    simp only []
    split_ifs <;> simp
  have hiff : inputTests argc arg Num_procs = 1 ↔
      (argc ≠ 4 ∨ arg 1 < 1 ∨ arg 2 < 1 ∨ arg 3 < 1 ∨ arg 2 < (Num_procs : Int)) := by
    unfold inputTests
    simp only []
    split_ifs with h1 h2 h3 h4
    · simp [h1]
    · simp [h2]
    · rcases h3 with h3 | h3 <;> simp [h3]
    · simp [h4]
    · push_neg at h1 h3
      constructor
      · intro h; exact absurd h (by norm_num)
      · intro h
        rcases h with h | h | h | h | h
        · exact absurd h1 h
        · omega
        · omega
        · omega
        · omega
  have hbail : bail_out Num_procs (inputError argc arg Num_procs) = true ↔
      inputTests argc arg Num_procs = 1 := by
    rw [bail_out_iff]
    constructor
    · rintro ⟨r, _, hne⟩
      unfold inputError at hne
      by_cases hr : r = Num_procs - 1
      · rw [if_pos hr] at hne
        rcases hval with h | h
        · exact h
        · exact absurd h hne
      · rw [if_neg hr] at hne
        exact absurd rfl hne
    · intro h
      refine ⟨Num_procs - 1, by omega, ?_⟩
      unfold inputError
      rw [if_pos rfl, h]
      norm_num
  have hmain : mainLoop argc arg Num_procs = Exit.failure ↔
      inputTests argc arg Num_procs = 1 := by
    rw [← hbail]
    unfold mainLoop
    by_cases hb : bail_out Num_procs (inputError argc arg Num_procs) = true
    · rw [if_pos hb]; simp [hb]
    · rw [if_neg hb]
      constructor
      · intro h
        split at h <;> exact absurd h (by simp)
      · intro h; exact absurd h hb
  refine ⟨hiff, ?_, hmain, ?_⟩
  · intro h
    rcases hval with h1 | h1
    · exact absurd h1 h
    · exact h1
  · intro h4 h2 hP4
    rw [hmain, hiff]
    right; right; right; right
    rw [h2, hP4]
    norm_num

theorem inputTests_spec_witness :
    mainLoop 4 (fun k => if k = 2 then 2 else 5) 4 = Exit.failure :=
  (inputTests_spec 4 (fun k => if k = 2 then 2 else 5) 4 (by decide)).2.2.2 rfl rfl rfl

/-- Where the ghost row agrees with the left neighbour at the end of the sweeps
of pass `k+1`: in every column `j ≥ 1`, and in column 0 unless rank 0 owns a
single row (`m = Num_procs`), the rank is rank 1 and a corner copy has already
overwritten the origin cell. -/
theorem ghost_row_matches (m n Num_procs k : Nat) (hP : 1 ≤ Num_procs) (hm : Num_procs ≤ m)
    (hn : 1 ≤ n) :
    ∃ w1, (run m n Num_procs k).bind (sweepAll m n Num_procs) = some w1 ∧
      ∀ r, 0 < r → r < Num_procs → ∀ j : Nat, j < n →
        (1 ≤ j ∨ Num_procs < m ∨ k = 0 ∨ 2 ≤ r) →
        rd (w1.vector r) (segment_size m Num_procs r) (-1) j
          = rd (w1.vector (r - 1)) (segment_size m Num_procs (r - 1))
              (localEnd m Num_procs (r - 1)) j := by
  obtain ⟨w, w1, _, hrun, hready, hsw, _, _, _, hcell, _⟩ := pass_spec m n Num_procs k hP hm hn
  refine ⟨w1, by rw [hrun]; exact hsw, ?_⟩
  intro r hr0 hr j hj hcase
  have hssr := segment_size_pos m Num_procs r hP hm hr
  have hssl := segment_size_pos m Num_procs (r - 1) hP hm (by omega)
  have hstl := localStart_le_one (r - 1)
  have hoff : offset m Num_procs (r - 1) + localEnd m Num_procs (r - 1)
      = offset m Num_procs r - 1 := by
    have := offset_succ m Num_procs (r - 1)
    rw [show r - 1 + 1 = r by omega] at this
    unfold localEnd
    rw [segment_size_eq m Num_procs (r - 1) (by omega)]
    omega
  have e1 := hcell r hr (-1) j (by omega) (by omega) hj
  have e2 := hcell (r - 1) (by omega) (localEnd m Num_procs (r - 1)) j
    (by unfold localEnd; omega) (by unfold localEnd; omega) hj
  rw [e1, e2, localStart_pos r hr0, hoff]
  by_cases hj1 : 1 ≤ j
  · rw [if_pos ⟨hj1, by omega⟩, if_pos ⟨hj1, by unfold localEnd; omega⟩]
    congr 1
  · have hj0 : j = 0 := by omega
    subst hj0
    rw [if_neg (by omega), if_neg (by omega)]
    have c1 := hready.2.1 r hr (-1) (by omega) (by omega)
    have c2 := hready.2.1 (r - 1) (by omega) (localEnd m Num_procs (r - 1))
      (by unfold localEnd; omega) (by unfold localEnd; omega)
    rw [Nat.cast_zero, c1, c2, if_neg (by omega), hoff]
    by_cases hal : r - 1 = 0 ∧ localEnd m Num_procs (r - 1) = 0
    · rw [if_pos hal]
      have hr1 : r = 1 := by omega
      subst hr1
      have h1 := hal.2
      rw [show 1 - 1 = 0 from rfl] at h1 hoff
      rw [h1, offset_zero] at hoff
      have hss1 : segment_size m Num_procs 0 = 1 := by unfold localEnd at h1; omega
      rcases hcase with h | h | h | h
      · omega
      · have := (rows_zero_two m Num_procs hP hm).2 h
        rw [← segment_size_eq m Num_procs 0 (by omega)] at this
        omega
      · subst h
        rw [mult_zero]
        simp
        omega
      · omega
    · rw [if_neg hal]
      ring

/-! ## Results on the initialisation and on the sweep -/

/-- The recurrence holds for the closed form left by the sweeps of one pass. -/
theorem recurrence_of_closed_form (m n Num_procs a : Nat) (c0 : Int) (w w1 : World)
    (hP : 1 ≤ Num_procs) (hm : Num_procs ≤ m) (ha : a < Num_procs)
    (hready : Ready m n Num_procs c0 w)
    (hcell : ∀ (i : Int) (j : Nat), -1 ≤ i → i < segment_size m Num_procs a →
        j < n → rd (w1.vector a) (segment_size m Num_procs a) i j =
          if 1 ≤ j ∧ localStart a - 1 ≤ i
          then gridVal (shift m Num_procs c0) (offset m Num_procs a + i) j
          else rd (w.vector a) (segment_size m Num_procs a) i j)
    (i : Int) (j : Nat) (hi : localStart a ≤ i) (hi' : i ≤ localEnd m Num_procs a)
    (hj : 1 ≤ j) (hjn : j < n) :
    rd (w1.vector a) (segment_size m Num_procs a) i j
      = rd (w1.vector a) (segment_size m Num_procs a) (i - 1) j
        + rd (w1.vector a) (segment_size m Num_procs a) i ((j : Int) - 1)
        - rd (w1.vector a) (segment_size m Num_procs a) (i - 1) ((j : Int) - 1) := by
  have hst0 := localStart_nonneg a
  have hen : localEnd m Num_procs a = segment_size m Num_procs a - 1 := rfl
  have hcast : ((j : Int) - 1) = ((j - 1 : Nat) : Int) := by omega
  have e1 := hcell i j (by omega) (by omega) hjn
  have e2 := hcell (i - 1) j (by omega) (by omega) hjn
  have e3 := hcell i (j - 1) (by omega) (by omega) (by omega)
  have e4 := hcell (i - 1) (j - 1) (by omega) (by omega) (by omega)
  rw [if_pos ⟨hj, by omega⟩] at e1 e2
  have hg1 : 1 ≤ offset m Num_procs a + i := by
    rcases Nat.eq_zero_or_pos a with h0 | hpos
    · subst h0
      rw [offset_zero]
      rw [localStart_zero] at hi
      omega
    · have := offset_pos m Num_procs a hP hm hpos
      omega
  have hsub : offset m Num_procs a + (i - 1) = offset m Num_procs a + i - 1 := by ring
  rw [hsub] at e2 e4
  have g1 : ∀ t : Nat, gridVal (shift m Num_procs c0) (offset m Num_procs a + i) t
      = offset m Num_procs a + i + (t : Int) - shift m Num_procs c0 := by
    intro t
    unfold gridVal
    rw [if_neg (by omega)]
  have g2 : ∀ t : Nat, gridVal (shift m Num_procs c0) (offset m Num_procs a + i - 1) t
      = if offset m Num_procs a + i - 1 = 0 then (t : Int)
        else offset m Num_procs a + i - 1 + (t : Int) - shift m Num_procs c0 := by
    intro t
    rfl
  rw [g1] at e1
  rw [g2] at e2
  rw [hcast, e1, e2]
  by_cases hj2 : 2 ≤ j
  · rw [if_pos ⟨by omega, by omega⟩, g1] at e3
    rw [if_pos ⟨by omega, by omega⟩, g2] at e4
    rw [e3, e4]
    have hc : ((j - 1 : Nat) : Int) = (j : Int) - 1 := by omega
    rw [hc]
    split_ifs <;> omega
  · have hj1 : j = 1 := by omega
    subst hj1
    rw [if_neg (by omega)] at e3 e4
    have c1 := hready.2.1 a ha i (by omega) (by omega)
    have c2 := hready.2.1 a ha (i - 1) (by omega) (by omega)
    have hni : ¬ (a = 0 ∧ i = 0) := by
      intro h
      have h1 := h.1
      subst h1
      rw [localStart_zero] at hi
      omega
    rw [if_neg hni] at c1
    rw [show (1 - 1 : Nat) = 0 from rfl, Nat.cast_zero] at e3 e4
    rw [show (1 - 1 : Nat) = 0 from rfl, Nat.cast_zero, e3, e4, c1, c2]
    by_cases hz : offset m Num_procs a + i - 1 = 0
    · rw [if_pos hz]
      rcases Nat.eq_zero_or_pos a with h0 | hpos
      · subst h0
        rw [offset_zero] at hz
        rw [if_pos ⟨rfl, by omega⟩]
        have h2 : 2 ≤ rows m Num_procs 0 := by
          rw [← segment_size_eq m Num_procs 0 ha]; omega
        have hlt := (rows_zero_two m Num_procs hP hm).1 h2
        unfold shift
        rw [if_pos hlt, offset_zero]
        push_cast
        omega
      · rw [if_neg (by omega)]
        have hnlt : ¬ Num_procs < m := by
          intro hlt
          have := offset_ge_two m Num_procs a hP hlt hpos
          omega
        unfold shift
        rw [if_neg hnlt]
        push_cast
        omega
    · rw [if_neg hz]
      have hni2 : ¬ (a = 0 ∧ i - 1 = 0) := by
        intro h
        have h1 := h.1
        subst h1
        rw [offset_zero] at hz
        omega
      rw [if_neg hni2]
      push_cast
      omega

theorem mem_collect {α : Type} (f : Nat → List α) (cnt : Nat) (x : α) :
    x ∈ collect f cnt ↔ ∃ k, k < cnt ∧ x ∈ f k := by
  unfold collect
  induction cnt with
  | zero => simp [forLoop]
  | succ c ih =>
    simp only [forLoop, List.mem_append, ih]
    constructor
    · rintro (⟨k, hk, hx⟩ | hx)
      · exact ⟨k, by omega, hx⟩
      · exact ⟨c, by omega, hx⟩
    · rintro ⟨k, hk, hx⟩
      by_cases hkc : k = c
      · subst hkc; exact Or.inr hx
      · exact Or.inl ⟨k, by omega, hx⟩

/-- A list collected by a loop is ordered when every piece is ordered and every
element of an earlier piece comes before every element of a later piece. -/
theorem pairwise_collect {α : Type} (R : α → α → Prop) (f : Nat → List α) (cnt : Nat)
    (h1 : ∀ k, k < cnt → List.Pairwise R (f k))
    (h2 : ∀ k k', k < k' → k' < cnt → ∀ x, x ∈ f k → ∀ y, y ∈ f k' → R x y) :
    List.Pairwise R (collect f cnt) := by
  induction cnt with
  | zero => exact List.Pairwise.nil
  | succ c ih =>
    have hstep : collect f (c + 1) = collect f c ++ f c := rfl
    rw [hstep, List.pairwise_append]
    refine ⟨ih (fun k hk => h1 k (by omega)) (fun k k' hk hk' => h2 k k' hk (by omega)),
      h1 c (by omega), ?_⟩
    intro x hx y hy
    obtain ⟨k, hk, hxk⟩ := (mem_collect f c x).1 hx
    exact h2 k c hk (by omega) x hxk y hy

/-- C14 (counterexample): with `m = 4`, `n = 4` on 2 ranks, after the sweeps of the
first pass the first owned row of rank 0 (global row 0) holds 2 in column 2,
while the recurrence over its ghost row gives `0 + 1 - 0 = 1`. -/
theorem first_row_misses_recurrence :
    ((run 4 4 2 0).bind (sweepAll 4 4 2)).map (fun w =>
      (rd (w.vector 0) (segment_size 4 2 0) 0 2,
        rd (w.vector 0) (segment_size 4 2 0) (-1) 2,
        rd (w.vector 0) (segment_size 4 2 0) 0 1,
        rd (w.vector 0) (segment_size 4 2 0) (-1) 1)) = some (2, 0, 1, 0) := by
  decide

/-- C14 (amended): after the sweeps of every pass of a valid run, on every rank,
for every owned row `i` (local index `0 ≤ i < segment_size`) other than global
row 0 and every column `j` in `1..n-1`,
`ARRAY(i,j) = ARRAY(i-1,j) + ARRAY(i,j-1) - ARRAY(i-1,j-1)`, where for the first
owned row of a rank `r > 0` the row `i-1 = -1` is its ghost row; global row 0, the
first owned row of rank 0, holds the column index `j`; the cells a sweep assigns
are those of the rows `start..end` and the columns `1..n-1`, reached column by
column in increasing order and, inside a column, row by row in increasing
order. -/
theorem sweep_recurrence (m n Num_procs k : Nat) (hP : 1 ≤ Num_procs) (hm : Num_procs ≤ m)
    (hn : 1 ≤ n) :
    (∃ w1, (run m n Num_procs k).bind (sweepAll m n Num_procs) = some w1 ∧
      (∀ a, a < Num_procs → ∀ (i : Int) (j : Nat), 0 ≤ i → i < segment_size m Num_procs a →
        ¬ (a = 0 ∧ i = 0) → 1 ≤ j → j < n →
        rd (w1.vector a) (segment_size m Num_procs a) i j
          = rd (w1.vector a) (segment_size m Num_procs a) (i - 1) j
            + rd (w1.vector a) (segment_size m Num_procs a) i ((j : Int) - 1)
            - rd (w1.vector a) (segment_size m Num_procs a) (i - 1) ((j : Int) - 1)) ∧
      (∀ j : Nat, 1 ≤ j → j < n →
        rd (w1.vector 0) (segment_size m Num_procs 0) 0 j = j)) ∧
    (∀ a, a < Num_procs →
      (∀ p, p ∈ sweepOrder m n Num_procs a ↔
        ((0 ≤ p.1 ∧ p.1 < segment_size m Num_procs a ∧ ¬ (a = 0 ∧ p.1 = 0)) ∧
          1 ≤ p.2 ∧ p.2 < n)) ∧
      List.Pairwise (fun p q => p.2 < q.2 ∨ (p.2 = q.2 ∧ p.1 < q.1))
        (sweepOrder m n Num_procs a)) := by
  obtain ⟨w, w1, _, hrun, hready, hsw, _, _, _, hcell, _⟩ := pass_spec m n Num_procs k hP hm hn
  have hls : ∀ a : Nat, ∀ i : Int, localStart a ≤ i ↔ (0 ≤ i ∧ ¬ (a = 0 ∧ i = 0)) := by
    intro a i
    unfold localStart
    by_cases ha : a = 0
    · rw [if_pos ha]
      constructor
      · intro h; exact ⟨by omega, fun h' => by omega⟩
      · intro h
        have : i ≠ 0 := fun h' => h.2 ⟨ha, h'⟩
        omega
    · rw [if_neg ha]
      constructor
      · intro h; exact ⟨h, fun h' => ha h'.1⟩
      · intro h; exact h.1
  refine ⟨⟨w1, by rw [hrun]; exact hsw, ?_, ?_⟩, ?_⟩
  · intro a ha i j hi hi' hne hj hjn
    exact recurrence_of_closed_form m n Num_procs a _ w w1 hP hm ha hready (hcell a ha)
      i j ((hls a i).2 ⟨hi, hne⟩) (by unfold localEnd; omega) hj hjn
  · intro j hj hjn
    have hpos := segment_size_pos m Num_procs 0 hP hm (by omega)
    rw [hcell 0 (by omega) 0 j (by omega) hpos hjn, if_pos ⟨hj, by rw [localStart_zero]; omega⟩,
      offset_zero]
    unfold gridVal
    rw [if_pos (by omega)]
  · intro a _
    constructor
    · intro p
      unfold sweepOrder
      rw [mem_collect]
      constructor
      · rintro ⟨c, hc, hp⟩
        obtain ⟨r, hr, hp⟩ := (mem_collect _ _ _).1 hp
        rw [List.mem_singleton] at hp
        subst hp
        have hr' : (r : Int) < localEnd m Num_procs a + 1 - localStart a := by
          have := (Int.lt_toNat).1 hr
          exact this
        have h0 := (hls a (localStart a + r)).1 (by omega)
        unfold localEnd at hr'
        refine ⟨⟨h0.1, by omega, h0.2⟩, ?_, ?_⟩
        · show (1 : Int) ≤ ((c + 1 : Nat) : Int)
          omega
        · show ((c + 1 : Nat) : Int) < (n : Int)
          omega
      · rintro ⟨⟨h0, h1, h2⟩, h3, h4⟩
        have hlo := (hls a p.1).2 ⟨h0, h2⟩
        refine ⟨(p.2 - 1).toNat, by omega, ?_⟩
        rw [mem_collect]
        refine ⟨(p.1 - localStart a).toNat, ?_, ?_⟩
        · apply (Int.lt_toNat).2
          unfold localEnd
          omega
        · rw [List.mem_singleton]
          apply Prod.ext
          · show p.1 = localStart a + (((p.1 - localStart a).toNat : Nat) : Int)
            omega
          · show p.2 = ((((p.2 - 1).toNat + 1 : Nat)) : Int)
            omega
    · unfold sweepOrder
      apply pairwise_collect
      · intro c _
        apply pairwise_collect
        · intro r _
          exact List.pairwise_singleton _ _
        · intro r r' hrr _ x hx y hy
          rw [List.mem_singleton] at hx hy
          subst hx
          subst hy
          right
          refine ⟨rfl, ?_⟩
          show localStart a + (r : Int) < localStart a + (r' : Int)
          omega
      · intro c c' hcc _ x hx y hy
        obtain ⟨r, _, hx⟩ := (mem_collect _ _ _).1 hx
        obtain ⟨r', _, hy⟩ := (mem_collect _ _ _).1 hy
        rw [List.mem_singleton] at hx hy
        subst hx
        subst hy
        left
        show ((c + 1 : Nat) : Int) < ((c' + 1 : Nat) : Int)
        omega

theorem sweep_recurrence_witness :
    ∃ w1, (run 4 4 2 0).bind (sweepAll 4 4 2) = some w1 ∧
      rd (w1.vector 1) (segment_size 4 2 1) 0 ((3 : Nat) : Int)
        = rd (w1.vector 1) (segment_size 4 2 1) (0 - 1) ((3 : Nat) : Int)
          + rd (w1.vector 1) (segment_size 4 2 1) 0 (((3 : Nat) : Int) - 1)
          - rd (w1.vector 1) (segment_size 4 2 1) (0 - 1) (((3 : Nat) : Int) - 1) := by
  obtain ⟨w1, h1, h2, _⟩ := (sweep_recurrence 4 4 2 0 (by decide) (by decide) (by decide)).1
  exact ⟨w1, h1, h2 1 (by decide) 0 3 (by decide) (by decide) (by decide) (by decide)
    (by decide)⟩

theorem sweepAll_one_column (m Num_procs : Nat) (w : World) :
    sweepAll m 1 Num_procs w = some w := by
  unfold sweepAll
  have key : ∀ c, forLoopM (fun my_ID w => sweep m 1 Num_procs my_ID w) c w = some w := by
    intro c
    induction c with
    | zero => rfl
    | succ c ih =>
      simp only [forLoopM]
      rw [ih]
      rfl
  exact key Num_procs

/-- C15: for `n = 1` the sweep of every rank returns the world it started from:
no cell is evaluated, no send and no receive is posted, no buffer changes, and
so the sweeps of all ranks leave the world unchanged; for every `n`, the sweeps
of every pass of a valid run leave column 0 of every row of every rank as it
was. -/
theorem sweep_frame (m n Num_procs k : Nat) (hP : 1 ≤ Num_procs) (hm : Num_procs ≤ m)
    (hn : 1 ≤ n) :
    (∀ a w, sweep m 1 Num_procs a w = some w) ∧
    (∀ w, sweepAll m 1 Num_procs w = some w) ∧
    (∃ w w1, run m n Num_procs k = some w ∧ sweepAll m n Num_procs w = some w1 ∧
      ∀ a, a < Num_procs → ∀ i : Int, -1 ≤ i → i < segment_size m Num_procs a →
        rd (w1.vector a) (segment_size m Num_procs a) i 0
          = rd (w.vector a) (segment_size m Num_procs a) i 0) := by
  obtain ⟨w, w1, _, hrun, _, hsw, _, _, _, hcell, _⟩ := pass_spec m n Num_procs k hP hm hn
  refine ⟨fun _ _ => rfl, sweepAll_one_column m Num_procs, w, w1, hrun, hsw, ?_⟩
  intro a ha i hi hi'
  have := hcell a ha i 0 hi hi' (by omega)
  rw [if_neg (by omega), Nat.cast_zero] at this
  exact this

theorem sweep_frame_witness :
    ∃ w w1, run 8 1 1 2 = some w ∧ sweepAll 8 1 1 w = some w1 ∧
      rd (w1.vector 0) (segment_size 8 1 0) 7 0 = rd (w.vector 0) (segment_size 8 1 0) 7 0 := by
  obtain ⟨w, w1, h1, h2, h3⟩ := (sweep_frame 8 1 1 2 (by decide) (by decide) (by decide)).2.2
  exact ⟨w, w1, h1, h2, h3 0 (by decide) 7 (by decide) (by decide)⟩

/-- C16: if `Num_procs < m` (rank 0 owns at least two rows) and `n ≥ 2`, then after
`k ≥ 1` completed passes every cell at a global row `g` in `[1,m)` and a column `j`
in `[1,n)` holds `g + j + (k-1)*(m+n-2)` on the rank that owns the row, the origin
cell `ARRAY(0,0)` of rank 0 holds `-k*(m+n-2)`, and the corner cell of the timing
rank holds `k*(m+n-2)`. -/
theorem grid_closed_form (m n Num_procs k : Nat) (hP : 1 ≤ Num_procs) (hm : Num_procs < m)
    (hn : 2 ≤ n) (hk : 1 ≤ k) :
    ∃ w, run m n Num_procs k = some w ∧
      (∀ a, a < Num_procs → ∀ (g : Int) (j : Nat), 1 ≤ g →
        (slices m Num_procs).start a ≤ g → g ≤ (slices m Num_procs).end_ a → 1 ≤ j → j < n →
        rd (w.vector a) (segment_size m Num_procs a) (g - (slices m Num_procs).start a) j
          = g + (j : Int) + ((k : Int) - 1) * ((m : Int) + n - 2)) ∧
      (∀ g : Int, 1 ≤ g → g < m → ∃ a, a < Num_procs ∧
        (slices m Num_procs).start a ≤ g ∧ g ≤ (slices m Num_procs).end_ a) ∧
      rd (w.vector 0) (segment_size m Num_procs 0) 0 0 = - ((k : Int) * ((m : Int) + n - 2)) ∧
      corner m n Num_procs w = (k : Int) * ((m : Int) + n - 2) := by
  obtain ⟨k', rfl⟩ : ∃ k', k = k' + 1 := ⟨k - 1, by omega⟩
  obtain ⟨w, w1, w2, _, _, _, _, hrun2, _, hcell, hc1, hc2, hv0, hvo, _⟩ :=
    pass_spec m n Num_procs k' hP (by omega) (by omega)
  have hreg : Num_procs < m ∧ 2 ≤ n := ⟨hm, hn⟩
  rw [mult_regular _ _ _ _ hreg] at hcell
  rw [mult_regular _ _ _ _ hreg] at hc1 hc2
  have hss0 := segment_size_pos m Num_procs 0 hP (by omega) (by omega)
  refine ⟨w2, hrun2, ?_, ?_, ?_, hc2⟩
  · intro a ha g j hg hs he hj hjn
    rw [slices_start m Num_procs a ha] at hs ⊢
    rw [slices_end m Num_procs a ha, offset_succ, ← segment_size_eq m Num_procs a ha] at he
    have hst1 := localStart_le_one a
    have hval : rd (w1.vector a) (segment_size m Num_procs a) (g - offset m Num_procs a) j
        = g + (j : Int) + (((k' + 1 : Nat) : Int) - 1) * ((m : Int) + n - 2) := by
      rw [hcell a ha (g - offset m Num_procs a) j (by omega) (by omega) hjn,
        if_pos ⟨hj, by omega⟩]
      unfold gridVal shift
      rw [if_neg (by omega), if_pos hm]
      push_cast
      ring
    by_cases ha0 : a = 0
    · subst ha0
      rw [hv0, rd_wr_other _ _ (by omega) hss0 (by omega) (by omega) (by omega)]
      exact hval
    · rw [hvo a ha0]
      exact hval
  · intro g hg hgm
    obtain ⟨r, hr, h1, h2⟩ := offset_cover m Num_procs Num_procs g (by omega)
      (by rw [offset_total m Num_procs hP]; exact hgm)
    refine ⟨r, hr, ?_, ?_⟩
    · rw [slices_start m Num_procs r hr]; exact h1
    · rw [slices_end m Num_procs r hr]; omega
  · rw [hv0, rd_wr_same, hc1]

theorem grid_closed_form_witness :
    ∃ w, run 5 3 2 3 = some w ∧ corner 5 3 2 w = ((3 : Nat) : Int) * (((5 : Nat) : Int) + (3 : Nat) - 2) := by
  obtain ⟨w, h1, _, _, _, h5⟩ := grid_closed_form 5 3 2 3 (by decide) (by decide) (by decide)
    (by decide)
  exact ⟨w, h1, h5⟩

/-! ## Results on the buffer layout -/

theorem ARRAY_bounds (s : Int) (n : Nat) (hs : 0 ≤ s) (i j : Int) (hi : -1 ≤ i) (hi' : i < s)
    (hj : 0 ≤ j) (hj' : j < n) : 0 ≤ ARRAY s i j ∧ ARRAY s i j < (s + 1) * n := by
  unfold ARRAY
  have h1 : 0 ≤ j * (s + 1) := mul_nonneg hj (by omega)
  have h2 : j * (s + 1) ≤ ((n : Int) - 1) * (s + 1) :=
    mul_le_mul_of_nonneg_right (by omega) (by omega)
  have h3 : (s + 1) * (n : Int) = ((n : Int) - 1) * (s + 1) + (s + 1) := by ring
  constructor
  · omega
  · rw [h3]; omega

theorem ARRAY_surj (s : Int) (n : Nat) (hs : 0 ≤ s) (idx : Int) (h0 : 0 ≤ idx)
    (h1 : idx < (s + 1) * n) :
    ∃ i j : Int, -1 ≤ i ∧ i < s ∧ 0 ≤ j ∧ j < n ∧ ARRAY s i j = idx := by
  have hpos : 0 < s + 1 := by omega
  refine ⟨idx % (s + 1) - 1, idx / (s + 1), ?_, ?_, ?_, ?_, ?_⟩
  · have := Int.emod_nonneg idx (show s + 1 ≠ 0 by omega)
    omega
  · have := Int.emod_lt_of_pos idx hpos
    omega
  · exact Int.ediv_nonneg h0 (by omega)
  · apply Int.ediv_lt_of_lt_mul hpos
    rw [mul_comm]; exact h1
  · unfold ARRAY
    have := Int.emod_add_ediv idx (s + 1)
    rw [mul_comm] at this
    omega

theorem clearAccesses_valid (n : Nat) (ss start end_ : Int) (hss : end_ - start + 1 = ss)
    (p : Int × Int) (hp : p ∈ clearAccesses n start end_) :
    -1 ≤ p.1 ∧ p.1 < ss ∧ 0 ≤ p.2 ∧ p.2 < n := by
  unfold clearAccesses at hp
  rw [mem_collect] at hp
  obtain ⟨j, hj, hp⟩ := hp
  rw [mem_collect] at hp
  obtain ⟨k, hk, hp⟩ := hp
  rw [List.mem_singleton] at hp
  rw [Int.lt_toNat] at hk
  subst hp
  simp only []
  omega

theorem boundaryAccesses_valid (n my_ID : Nat) (ss start end_ : Int)
    (hss : end_ - start + 1 = ss) (hpos : 1 ≤ ss) (hn : 1 ≤ n) (p : Int × Int)
    (hp : p ∈ boundaryAccesses n my_ID start end_) :
    -1 ≤ p.1 ∧ p.1 < ss ∧ 0 ≤ p.2 ∧ p.2 < n := by
  unfold boundaryAccesses at hp
  rw [List.mem_append] at hp
  rcases hp with hp | hp
  · by_cases h0 : my_ID = 0
    · rw [if_pos h0, mem_collect] at hp
      obtain ⟨j, hj, hp⟩ := hp
      rw [List.mem_singleton] at hp
      subst hp
      simp only []
      omega
    · rw [if_neg h0] at hp
      exact absurd hp (List.not_mem_nil _)
  · rw [mem_collect] at hp
    obtain ⟨k, hk, hp⟩ := hp
    rw [List.mem_singleton] at hp
    rw [Int.lt_toNat] at hk
    subst hp
    simp only []
    omega

theorem sweepAccesses_valid (m n Num_procs my_ID : Nat)
    (hpos : 1 ≤ segment_size m Num_procs my_ID) (p : Int × Int)
    (hp : p ∈ sweepAccesses m n Num_procs my_ID) :
    -1 ≤ p.1 ∧ p.1 < segment_size m Num_procs my_ID ∧ 0 ≤ p.2 ∧ p.2 < n := by
  have hst0 := localStart_nonneg my_ID
  have hst1 := localStart_le_one my_ID
  have hen : localEnd m Num_procs my_ID = segment_size m Num_procs my_ID - 1 := rfl
  unfold sweepAccesses at hp
  rw [mem_collect] at hp
  obtain ⟨c, hc, hp⟩ := hp
  simp only [List.mem_append] at hp
  rcases hp with (hp | hp) | hp
  · by_cases h0 : my_ID > 0
    · rw [if_pos h0, List.mem_singleton] at hp
      subst hp
      simp only []
      omega
    · rw [if_neg h0] at hp
      exact absurd hp (List.not_mem_nil _)
  · rw [mem_collect] at hp
    obtain ⟨k, hk, hp⟩ := hp
    rw [Int.lt_toNat] at hk
    simp only [List.mem_cons, List.mem_singleton, List.not_mem_nil, or_false] at hp
    rcases hp with hp | hp | hp | hp <;> subst hp <;> simp only [] <;> omega
  · by_cases h0 : my_ID ≠ Num_procs - 1
    · rw [if_pos h0, List.mem_singleton] at hp
      subst hp
      simp only []
      omega
    · rw [if_neg h0] at hp
      exact absurd hp (List.not_mem_nil _)

theorem cornerAccesses_valid (m n Num_procs my_ID : Nat)
    (hpos : 1 ≤ segment_size m Num_procs my_ID) (hn : 1 ≤ n) (p : Int × Int)
    (hp : p ∈ cornerAccesses m n Num_procs my_ID ∨ p ∈ verifyAccesses m n Num_procs my_ID) :
    -1 ≤ p.1 ∧ p.1 < segment_size m Num_procs my_ID ∧ 0 ≤ p.2 ∧ p.2 < n := by
  have hen : localEnd m Num_procs my_ID = segment_size m Num_procs my_ID - 1 := rfl
  have key : p = (localEnd m Num_procs my_ID, (n : Int) - 1) ∨ p = ((0 : Int), (0 : Int)) := by
    rcases hp with hp | hp
    · unfold cornerAccesses at hp
      split_ifs at hp <;> simp at hp <;> tauto
    · unfold verifyAccesses at hp
      split_ifs at hp
      · simp at hp; tauto
      · simp at hp
  rcases key with h | h <;> subst h <;> (simp only []; omega)

/-- C17: for every segment size `s ≥ 1` and every `n ≥ 1` the index map
`(i,j) -> i+1+j*(s+1)` of `ARRAY` sends `{-1..s-1} x {0..n-1}` into `[0,(s+1)*n)`,
is injective and reaches every index of `[0,(s+1)*n)`; for every rank of a valid
run `total_length = (segment_size+1)*n`, and every `ARRAY` argument of the clear,
boundary, sweep, corner-copy and verification code has its row in `-1..s-1`, its
column in `0..n-1` and its index inside `[0,total_length)`. -/
theorem storage_layout (m n Num_procs r : Nat) (hr : r < Num_procs) (hm : Num_procs ≤ m)
    (hn : 1 ≤ n) :
    (∀ s : Int, 1 ≤ s →
      (∀ i j : Int, -1 ≤ i → i < s → 0 ≤ j → j < n →
        0 ≤ ARRAY s i j ∧ ARRAY s i j < (s + 1) * n) ∧
      (∀ i j i' j' : Int, -1 ≤ i → i < s → -1 ≤ i' → i' < s →
        ARRAY s i j = ARRAY s i' j' → i = i' ∧ j = j') ∧
      (∀ idx : Int, 0 ≤ idx → idx < (s + 1) * n →
        ∃ i j : Int, -1 ≤ i ∧ i < s ∧ 0 ≤ j ∧ j < n ∧ ARRAY s i j = idx)) ∧
    1 ≤ segment_size m Num_procs r ∧
    total_length m n Num_procs r = (segment_size m Num_procs r + 1) * n ∧
    (∀ p, p ∈ accesses m n Num_procs r →
      -1 ≤ p.1 ∧ p.1 < segment_size m Num_procs r ∧ 0 ≤ p.2 ∧ p.2 < n ∧
      0 ≤ ARRAY (segment_size m Num_procs r) p.1 p.2 ∧
      ARRAY (segment_size m Num_procs r) p.1 p.2 < total_length m n Num_procs r) := by
  have hpos := segment_size_pos m Num_procs r (by omega) hm hr
  have htot : total_length m n Num_procs r = (segment_size m Num_procs r + 1) * n := rfl
  refine ⟨?_, hpos, htot, ?_⟩
  · intro s hs
    refine ⟨?_, ?_, ?_⟩
    · intro i j hi hi' hj hj'
      exact ARRAY_bounds s n (by omega) i j hi hi' hj hj'
    · intro i j i' j' hi hi' hk hk' h
      exact ARRAY_inj hi hi' hk hk' h
    · intro idx h0 h1
      exact ARRAY_surj s n (by omega) idx h0 h1
  · intro p hp
    have hv : -1 ≤ p.1 ∧ p.1 < segment_size m Num_procs r ∧ 0 ≤ p.2 ∧ p.2 < n := by
      unfold accesses at hp
      simp only [List.mem_append] at hp
      rcases hp with (((hp | hp) | hp) | hp) | hp
      · exact clearAccesses_valid n _ _ _ (by unfold segment_size; ring) p hp
      · exact boundaryAccesses_valid n r _ _ _ (by unfold segment_size; ring) hpos hn p hp
      · exact sweepAccesses_valid m n Num_procs r hpos p hp
      · exact cornerAccesses_valid m n Num_procs r hpos hn p (Or.inl hp)
      · exact cornerAccesses_valid m n Num_procs r hpos hn p (Or.inr hp)
    obtain ⟨h1, h2, h3, h4⟩ := hv
    have hb := ARRAY_bounds (segment_size m Num_procs r) n (by omega) p.1 p.2 h1 h2 h3 h4
    rw [htot]
    exact ⟨h1, h2, h3, h4, hb.1, hb.2⟩

theorem storage_layout_witness :
    (1 : Int) ≤ segment_size 4 2 1 ∧
    total_length 4 4 2 1 = (segment_size 4 2 1 + 1) * ((4 : Nat) : Int) :=
  ⟨(storage_layout 4 4 2 1 (by decide) (by decide) (by decide)).2.1,
    (storage_layout 4 4 2 1 (by decide) (by decide) (by decide)).2.2.1⟩

/-! ## Results on the buffer length in 32-bit arithmetic -/

theorem wrap32_id (x : Int) (h0 : -2147483648 ≤ x) (h1 : x < 2147483648) : wrap32 x = x := by
  unfold wrap32; omega

theorem wrap32_range (x : Int) : -2147483648 ≤ wrap32 x ∧ wrap32 x < 2147483648 := by
  unfold wrap32; omega

theorem wrap32_lt (x : Int) (h : 2147483648 ≤ x) : wrap32 x < x := by
  unfold wrap32; omega

theorem segment_size_le (m Num_procs r : Nat) (hP : 1 ≤ Num_procs) (hr : r < Num_procs) :
    segment_size m Num_procs r ≤ m := by
  rw [segment_size_eq m Num_procs r hr]
  have h1 := offset_succ m Num_procs r
  have h2 := offset_mono m Num_procs (show r + 1 ≤ Num_procs by omega)
  have h3 := offset_mono m Num_procs (show 0 ≤ r by omega)
  rw [offset_zero] at h3
  rw [offset_total m Num_procs hP] at h2
  omega

/-- The truncating division of a wrapped product recovers the factor exactly when
the product did not wrap. -/
theorem tdiv_wrap32_eq_iff (d n : Int) (hd : 1 ≤ d) (hn : 1 ≤ n) :
    Int.tdiv (wrap32 (d * n)) d = n ↔ d * n < 2147483648 := by
  have hx0 : 0 ≤ d * n := mul_nonneg (by omega) (by omega)
  constructor
  · intro h
    by_contra hge
    have hlt := wrap32_lt (d * n) (by omega)
    by_cases hy : 0 ≤ wrap32 (d * n)
    · rw [Int.tdiv_eq_ediv hy (by omega)] at h
      have : wrap32 (d * n) / d < n :=
        Int.ediv_lt_of_lt_mul (by omega) (by rw [mul_comm n d]; exact hlt)
      omega
    · have h1 : Int.tdiv (wrap32 (d * n)) d = - (Int.tdiv (- wrap32 (d * n)) d) := by
        rw [Int.neg_tdiv, neg_neg]
      rw [h1, Int.tdiv_eq_ediv (by omega) (by omega)] at h
      have : 0 ≤ (- wrap32 (d * n)) / d := Int.ediv_nonneg (by omega) (by omega)
      omega
  · intro h
    rw [wrap32_id (d * n) (by omega) h, Int.tdiv_eq_ediv hx0 (by omega)]
    exact Int.mul_ediv_cancel_left n (by omega)

/-- C18 (counterexample): for `m = 3`, `n = 10^9` on 2 ranks the test of the timing
rank passes, while the `total_length` of rank 0, whose exact value is `3*10^9`,
has wrapped to `-1294967296`. -/
theorem overflow_check_misses_rank_zero :
    tooLarge 3 1000000000 2 = false ∧
    total_length32 3 1000000000 2 0 = -1294967296 ∧
    total_length 3 1000000000 2 0 = 3000000000 := by
  decide

/-- C18 (amended): for valid inputs with `m+1` and `n` below 2^31, the test of the
timing rank passes exactly when its own product `(segment_size+1)*n` is below
2^31; when it passes, the `total_length` computed in 32-bit arithmetic equals
the exact product on the timing rank and on every rank whose segment has the
same size (the ranks `r ≥ m mod Num_procs`). -/
theorem overflow_check_root (m n Num_procs : Nat) (hP : 1 ≤ Num_procs) (hm : Num_procs ≤ m)
    (hn : 1 ≤ n) (hm32 : (m : Int) + 1 < 2147483648) (hn32 : (n : Int) < 2147483648) :
    (tooLarge m n Num_procs = false ↔
      (segment_size m Num_procs (Num_procs - 1) + 1) * n < 2147483648) ∧
    (tooLarge m n Num_procs = false → ∀ r, r < Num_procs → m % Num_procs ≤ r →
      segment_size m Num_procs r = segment_size m Num_procs (Num_procs - 1) ∧
      total_length32 m n Num_procs r = total_length m n Num_procs r) := by
  have hseg : ∀ r, r < Num_procs →
      segment_size32 m Num_procs r = segment_size m Num_procs r ∧
      total_length32 m n Num_procs r = wrap32 ((segment_size m Num_procs r + 1) * n) := by
    intro r hr
    have h1 := segment_size_pos m Num_procs r hP hm hr
    have h2 := segment_size_le m Num_procs r hP hr
    have hdef : segment_size m Num_procs r
        = (slices m Num_procs).end_ r - (slices m Num_procs).start r + 1 := rfl
    have w1 : wrap32 ((slices m Num_procs).end_ r - (slices m Num_procs).start r)
        = (slices m Num_procs).end_ r - (slices m Num_procs).start r :=
      wrap32_id _ (by omega) (by omega)
    have w2 : wrap32 ((slices m Num_procs).end_ r - (slices m Num_procs).start r + 1)
        = segment_size m Num_procs r := by
      rw [wrap32_id _ (by omega) (by omega)]
      exact hdef.symm
    have w3 : wrap32 (segment_size m Num_procs r + 1) = segment_size m Num_procs r + 1 :=
      wrap32_id _ (by omega) (by omega)
    constructor
    · unfold segment_size32
      rw [w1, w2]
    · unfold total_length32
      rw [w1, w2, w3]
  have hroot := hseg (Num_procs - 1) (by omega)
  have h1 := segment_size_pos m Num_procs (Num_procs - 1) hP hm (by omega)
  have h2 := segment_size_le m Num_procs (Num_procs - 1) hP (by omega)
  have hiff : tooLarge m n Num_procs = false ↔
      (segment_size m Num_procs (Num_procs - 1) + 1) * n < 2147483648 := by
    unfold tooLarge
    rw [hroot.1, hroot.2,
      wrap32_id (segment_size m Num_procs (Num_procs - 1) + 1) (by omega) (by omega),
      decide_eq_false_iff_not, not_not]
    exact tdiv_wrap32_eq_iff _ _ (by omega) (by omega)
  refine ⟨hiff, ?_⟩
  intro hpass r hr hmod
  have hsame : segment_size m Num_procs r = segment_size m Num_procs (Num_procs - 1) := by
    have hlt : m % Num_procs < Num_procs := Nat.mod_lt _ (by omega)
    rw [segment_size_eq m Num_procs r hr, segment_size_eq m Num_procs (Num_procs - 1) (by omega)]
    unfold rows
    rw [if_neg (by omega), if_neg (by omega)]
  refine ⟨hsame, ?_⟩
  rw [(hseg r hr).2, hsame]
  have hx0 : 0 ≤ (segment_size m Num_procs (Num_procs - 1) + 1) * (n : Int) :=
    mul_nonneg (by omega) (by omega)
  rw [wrap32_id _ (by omega) (hiff.1 hpass)]
  show _ = (segment_size m Num_procs r + 1) * (n : Int)
  rw [hsame]

theorem overflow_check_root_witness :
    (tooLarge 4 4 2 = false ↔ (segment_size 4 2 (2 - 1) + 1) * ((4 : Nat) : Int) < 2147483648) :=
  (overflow_check_root 4 4 2 (by decide) (by decide) (by decide) (by decide) (by decide)).1

/-! ## Results on the verification and on the timing -/

end P2P

namespace Transpose

/-! ## Facts about loops of writes -/

theorem wrote_start {α : Type} (F : Nat → α) (B0 : Mat α) :
    Wrote F (fun _ => False) B0 B0 :=
  fun _ => ⟨fun h => absurd h id, fun _ => rfl⟩

theorem wrote_congr {α : Type} (F : Nat → α) (P Q : Nat → Prop) (B0 B : Mat α)
    (h : Wrote F P B0 B) (hPQ : ∀ idx, P idx ↔ Q idx) : Wrote F Q B0 B :=
  fun idx => ⟨fun hq => (h idx).1 ((hPQ idx).2 hq),
    fun hq => (h idx).2 (fun hp => hq ((hPQ idx).1 hp))⟩

theorem wrote_update {α : Type} (F : Nat → α) (P : Nat → Prop) (B0 B : Mat α) (k : Nat)
    (x : α) (hx : x = F k) (h : Wrote F P B0 B) :
    Wrote F (fun idx => P idx ∨ idx = k) B0 ⟨Function.update B.cell k x⟩ := by
  intro idx
  by_cases hk : idx = k
  · subst hk
    refine ⟨fun _ => ?_, fun hn => absurd (Or.inr rfl) hn⟩
    simp [hx]
  · refine ⟨fun hp => ?_, fun hn => ?_⟩
    · rcases hp with hp | hp
      · simp only [Function.update_noteq hk]
        exact (h idx).1 hp
      · exact absurd hp hk
    · simp only [Function.update_noteq hk]
      exact (h idx).2 (fun hp => hn (Or.inl hp))

theorem wrote_forLoop {α : Type} (F : Nat → α) (B0 : Mat α) (body : Nat → Mat α → Mat α)
    (T : Nat → Nat → Prop) (cnt : Nat)
    (hbody : ∀ k, k < cnt → ∀ (P : Nat → Prop) (B : Mat α), Wrote F P B0 B →
      Wrote F (fun idx => P idx ∨ T k idx) B0 (body k B))
    (P : Nat → Prop) (B : Mat α) (h : Wrote F P B0 B) :
    Wrote F (fun idx => P idx ∨ ∃ k, k < cnt ∧ T k idx) B0 (P2P.forLoop body cnt B) := by
  induction cnt with
  | zero =>
    simp only [P2P.forLoop]
    apply wrote_congr F P _ B0 B h
    intro idx
    constructor
    · intro hp; exact Or.inl hp
    · rintro (hp | ⟨k, hk, _⟩)
      · exact hp
      · omega
  | succ c ih =>
    simp only [P2P.forLoop]
    have h1 := ih (fun k hk => hbody k (by omega))
    have h2 := hbody c (by omega) _ _ h1
    apply wrote_congr F _ _ B0 _ h2
    intro idx
    constructor
    · rintro ((hp | ⟨k, hk, ht⟩) | ht)
      · exact Or.inl hp
      · exact Or.inr ⟨k, by omega, ht⟩
      · exact Or.inr ⟨c, by omega, ht⟩
    · rintro (hp | ⟨k, hk, ht⟩)
      · exact Or.inl (Or.inl hp)
      · by_cases hkc : k = c
        · subst hkc; exact Or.inr ht
        · exact Or.inl (Or.inr ⟨k, by omega, ht⟩)

theorem wrote_forStep {α : Type} (F : Nat → α) (B0 : Mat α) (body : Nat → Mat α → Mat α)
    (T : Nat → Nat → Prop) (hi step : Nat) (hstep : 1 ≤ step)
    (hbody : ∀ i, i < hi → ∀ (P : Nat → Prop) (B : Mat α), Wrote F P B0 B →
      Wrote F (fun idx => P idx ∨ T i idx) B0 (body i B)) :
    ∀ (fuel i : Nat), hi ≤ i + fuel → ∀ (P : Nat → Prop) (B : Mat α), Wrote F P B0 B →
    Wrote F (fun idx => P idx ∨ ∃ q, i + q * step < hi ∧ T (i + q * step) idx) B0
      (forStep body hi step fuel i B) := by
  intro fuel
  induction fuel with
  | zero =>
    intro i hfuel P B h
    simp only [forStep]
    apply wrote_congr F P _ B0 B h
    intro idx
    constructor
    · intro hp; exact Or.inl hp
    · rintro (hp | ⟨q, hq, _⟩)
      · exact hp
      · have : i ≤ i + q * step := Nat.le_add_right _ _
        omega
  | succ f ih =>
    intro i hfuel P B h
    simp only [forStep]
    by_cases hlt : i < hi
    · rw [if_pos hlt]
      have h1 := hbody i hlt P B h
      have h2 := ih (i + step) (by omega) _ _ h1
      apply wrote_congr F _ _ B0 _ h2
      intro idx
      constructor
      · rintro ((hp | ht) | ⟨q, hq, ht⟩)
        · exact Or.inl hp
        · exact Or.inr ⟨0, by simpa using hlt, by simpa using ht⟩
        · refine Or.inr ⟨q + 1, ?_, ?_⟩
          · rw [Nat.succ_mul]; omega
          · have e : i + (q + 1) * step = i + step + q * step := by rw [Nat.succ_mul]; omega
            rw [e]; exact ht
      · rintro (hp | ⟨q, hq, ht⟩)
        · exact Or.inl (Or.inl hp)
        · cases q with
          | zero => exact Or.inl (Or.inr (by simpa using ht))
          | succ q =>
            have e : i + (q + 1) * step = i + step + q * step := by rw [Nat.succ_mul]; omega
            rw [e] at hq ht
            exact Or.inr ⟨q, hq, ht⟩
    · rw [if_neg hlt]
      apply wrote_congr F P _ B0 B h
      intro idx
      constructor
      · intro hp; exact Or.inl hp
      · rintro (hp | ⟨q, hq, _⟩)
        · exact hp
        · have : i ≤ i + q * step := Nat.le_add_right _ _
          omega

/-! ## Facts about the index `i + order*j` -/

theorem index_div (order i j : Nat) (hi : i < order) : (i + order * j) / order = j := by
  rw [Nat.add_mul_div_left _ _ (by omega), Nat.div_eq_of_lt hi, Nat.zero_add]

theorem index_mod (order i j : Nat) (hi : i < order) : (i + order * j) % order = i := by
  rw [Nat.add_mul_mod_self_left, Nat.mod_eq_of_lt hi]

theorem index_lt (order i j : Nat) (hi : i < order) (hj : j < order) :
    i + order * j < order * order := by
  have h1 : order * (j + 1) ≤ order * order := Nat.mul_le_mul_left _ (by omega)
  rw [Nat.mul_succ] at h1
  omega

theorem index_split (order idx : Nat) (h : idx < order * order) :
    idx % order < order ∧ idx / order < order ∧ idx = idx % order + order * (idx / order) := by
  have hpos : 0 < order := by
    rcases Nat.eq_zero_or_pos order with h0 | h0
    · subst h0; simp at h
    · exact h0
  refine ⟨Nat.mod_lt _ hpos, Nat.div_lt_of_lt_mul h, (Nat.mod_add_div idx order).symm⟩

theorem transposed_index {α : Type} (order : Nat) (A : Mat α) (i j : Nat) (hi : i < order) :
    A.cell (j + order * i) = transposed order A (i + order * j) := by
  unfold transposed
  rw [index_div order i j hi, index_mod order i j hi]

theorem tile_bound (order ts i a : Nat) :
    a < P2P.MIN order (i + ts) - i ↔ i + a < order ∧ a < ts := by
  unfold P2P.MIN
  split_ifs <;> omega

theorem tile_split (ts x : Nat) (hts : 1 ≤ ts) :
    x = 0 + x / ts * ts + x % ts ∧ x % ts < ts ∧ 0 + x / ts * ts ≤ x := by
  have h1 := Nat.div_add_mod x ts
  have h2 := Nat.mod_lt x (show ts > 0 by omega)
  rw [Nat.mul_comm] at h1
  omega

/-! ## The two loop nests -/

theorem untiled_wrote {α : Type} (order : Nat) (A B0 : Mat α) :
    Wrote (transposed order A) (fun idx => idx < order * order) B0 (untiled order A B0) := by
  have hb : ∀ i, i < order → ∀ (P : Nat → Prop) (B : Mat α),
      Wrote (transposed order A) P B0 B →
      Wrote (transposed order A) (fun idx => P idx ∨ ∃ j, j < order ∧ idx = i + order * j) B0
        (P2P.forLoop (fun j B =>
          ⟨Function.update B.cell (i + order * j) (A.cell (j + order * i))⟩) order B) := by
    intro i hi P B h
    exact wrote_forLoop (transposed order A) B0 _ (fun j idx => idx = i + order * j) order
      (fun j _ P B h => wrote_update (transposed order A) P B0 B (i + order * j) _
        (transposed_index order A i j hi) h) P B h
  have h := wrote_forLoop (transposed order A) B0 _
    (fun i idx => ∃ j, j < order ∧ idx = i + order * j) order hb (fun _ => False) B0
    (wrote_start _ _)
  apply wrote_congr _ _ _ _ _ h
  intro idx
  constructor
  · rintro (hf | ⟨i, hi, j, hj, rfl⟩)
    · exact absurd hf id
    · exact index_lt order i j hi hj
  · intro hlt
    obtain ⟨h1, h2, h3⟩ := index_split order idx hlt
    exact Or.inr ⟨idx % order, h1, idx / order, h2, h3⟩

theorem tiled_wrote {α : Type} (order tile_size : Nat) (A B0 : Mat α) (hts : 1 ≤ tile_size) :
    Wrote (transposed order A) (fun idx => idx < order * order) B0
      (tiled order tile_size A B0) := by
  have hjt : ∀ i a j, i + a < order → ∀ (P : Nat → Prop) (B : Mat α),
      Wrote (transposed order A) P B0 B →
      Wrote (transposed order A)
        (fun idx => P idx ∨ ∃ b, b < P2P.MIN order (j + tile_size) - j ∧
          idx = (i + a) + order * (j + b)) B0
        (P2P.forLoop (fun b B =>
          ⟨Function.update B.cell ((i + a) + order * (j + b)) (A.cell ((j + b) + order * (i + a)))⟩)
          (P2P.MIN order (j + tile_size) - j) B) := by
    intro i a j hia P B h
    exact wrote_forLoop (transposed order A) B0 _
      (fun b idx => idx = (i + a) + order * (j + b)) _
      (fun b _ P B h => wrote_update (transposed order A) P B0 B ((i + a) + order * (j + b)) _
        (transposed_index order A (i + a) (j + b) hia) h) P B h
  have hit : ∀ i j, ∀ (P : Nat → Prop) (B : Mat α),
      Wrote (transposed order A) P B0 B →
      Wrote (transposed order A)
        (fun idx => P idx ∨ ∃ a, a < P2P.MIN order (i + tile_size) - i ∧
          ∃ b, b < P2P.MIN order (j + tile_size) - j ∧ idx = (i + a) + order * (j + b)) B0
        (P2P.forLoop (fun a B =>
          P2P.forLoop (fun b B =>
            ⟨Function.update B.cell ((i + a) + order * (j + b))
              (A.cell ((j + b) + order * (i + a)))⟩)
            (P2P.MIN order (j + tile_size) - j) B)
          (P2P.MIN order (i + tile_size) - i) B) := by
    intro i j P B h
    exact wrote_forLoop (transposed order A) B0 _
      (fun a idx => ∃ b, b < P2P.MIN order (j + tile_size) - j ∧
        idx = (i + a) + order * (j + b)) _
      (fun a ha P B h => hjt i a j ((tile_bound order tile_size i a).1 ha).1 P B h) P B h
  have hj : ∀ i, ∀ (P : Nat → Prop) (B : Mat α),
      Wrote (transposed order A) P B0 B →
      Wrote (transposed order A)
        (fun idx => P idx ∨ ∃ q, 0 + q * tile_size < order ∧
          ∃ a, a < P2P.MIN order (i + tile_size) - i ∧
          ∃ b, b < P2P.MIN order ((0 + q * tile_size) + tile_size) - (0 + q * tile_size) ∧
            idx = (i + a) + order * ((0 + q * tile_size) + b)) B0
        (forStep (fun j B =>
          P2P.forLoop (fun a B =>
            P2P.forLoop (fun b B =>
              ⟨Function.update B.cell ((i + a) + order * (j + b))
                (A.cell ((j + b) + order * (i + a)))⟩)
              (P2P.MIN order (j + tile_size) - j) B)
            (P2P.MIN order (i + tile_size) - i) B) order tile_size order 0 B) := by
    intro i P B h
    exact wrote_forStep (transposed order A) B0 _
      (fun j idx => ∃ a, a < P2P.MIN order (i + tile_size) - i ∧
        ∃ b, b < P2P.MIN order (j + tile_size) - j ∧ idx = (i + a) + order * (j + b))
      order tile_size hts (fun j _ P B h => hit i j P B h) order 0 (by omega) P B h
  have h := wrote_forStep (transposed order A) B0 _
    (fun i idx => ∃ q, 0 + q * tile_size < order ∧
      ∃ a, a < P2P.MIN order (i + tile_size) - i ∧
      ∃ b, b < P2P.MIN order ((0 + q * tile_size) + tile_size) - (0 + q * tile_size) ∧
        idx = (i + a) + order * ((0 + q * tile_size) + b))
    order tile_size hts (fun i _ P B h => hj i P B h) order 0 (by omega) (fun _ => False) B0
    (wrote_start _ _)
  apply wrote_congr _ _ _ _ _ h
  intro idx
  constructor
  · rintro (hf | ⟨p, _, q, _, a, ha, b, hb, rfl⟩)
    · exact absurd hf id
    · exact index_lt order _ _ ((tile_bound order tile_size _ a).1 ha).1
        ((tile_bound order tile_size _ b).1 hb).1
  · intro hlt
    obtain ⟨h1, h2, h3⟩ := index_split order idx hlt
    obtain ⟨a1, a2, a3⟩ := tile_split tile_size (idx % order) hts
    obtain ⟨b1, b2, b3⟩ := tile_split tile_size (idx / order) hts
    refine Or.inr ⟨idx % order / tile_size, by omega, idx / order / tile_size, by omega,
      idx % order % tile_size, (tile_bound order tile_size _ _).2 ⟨by omega, a2⟩,
      idx / order % tile_size, (tile_bound order tile_size _ _).2 ⟨by omega, b2⟩, ?_⟩
    rw [← a1, ← b1]
    exact h3

theorem transpose_wrote {α : Type} (order tile_size : Nat) (A B0 : Mat α)
    (hts : 1 ≤ tile_size ∨ order ≤ tile_size) :
    Wrote (transposed order A) (fun idx => idx < order * order) B0
      (transpose order tile_size A B0) := by
  unfold transpose
  split_ifs with h
  · exact tiled_wrote order tile_size A B0 (by omega)
  · exact untiled_wrote order A B0

theorem wrote_unique {α : Type} (F : Nat → α) (P : Nat → Prop) (B0 B1 B2 : Mat α)
    (h1 : Wrote F P B0 B1) (h2 : Wrote F P B0 B2) : B1 = B2 := by
  cases B1 with
  | mk c1 =>
    cases B2 with
    | mk c2 =>
      congr
      funext idx
      by_cases hp : P idx
      · exact ((h1 idx).1 hp).trans ((h2 idx).1 hp).symm
      · exact ((h1 idx).2 hp).trans ((h2 idx).2 hp).symm

theorem wrote_cell {α : Type} (order : Nat) (A B0 B : Mat α)
    (h : Wrote (transposed order A) (fun idx => idx < order * order) B0 B) (i j : Nat)
    (hi : i < order) (hj : j < order) : B.cell (i + order * j) = A.cell (j + order * i) := by
  rw [(h (i + order * j)).1 (index_lt order i j hi hj)]
  exact (transposed_index order A i j hi).symm

/-- C19: for every order, every tile size with `1 ≤ tile_size < order` and every
input matrix `A` (and every previous content of `B`), the tiled loop nest leaves
`B` exactly as the untiled loop nest does: `B[i+order*j] = A[j+order*i]` for all
`0 ≤ i, j < order` and no other element of `B` is changed, whether or not
`tile_size` divides `order`; so does the branch the program takes. -/
theorem tiled_agrees_with_untiled {α : Type} (order tile_size : Nat) (A B0 : Mat α)
    (h1 : 1 ≤ tile_size) (h2 : tile_size < order) :
    tiled order tile_size A B0 = untiled order A B0 ∧
    transpose order tile_size A B0 = untiled order A B0 ∧
    (∀ i j, i < order → j < order →
      (tiled order tile_size A B0).cell (i + order * j) = A.cell (j + order * i) ∧
      (untiled order A B0).cell (i + order * j) = A.cell (j + order * i)) ∧
    (∀ idx, order * order ≤ idx →
      (tiled order tile_size A B0).cell idx = B0.cell idx) := by
  have ht := tiled_wrote order tile_size A B0 h1
  have hu := untiled_wrote order A B0
  have e := wrote_unique _ _ B0 _ _ ht hu
  refine ⟨e, ?_, fun i j hi hj => ⟨wrote_cell order A B0 _ ht i j hi hj,
    wrote_cell order A B0 _ hu i j hi hj⟩, fun idx hidx => (ht idx).2 (by omega)⟩
  unfold transpose
  rw [if_pos h2, e]

/-- A run of C19 on a matrix of order 5 with tiles of side 2, which does not divide
the order. -/
theorem tiled_agrees_with_untiled_witness :
    (1 ≤ 2 ∧ 2 < 5) ∧
    tiled 5 2 (⟨fun k => k⟩ : Mat Nat) ⟨fun _ => 0⟩ = untiled 5 ⟨fun k => k⟩ ⟨fun _ => 0⟩ :=
  ⟨by decide,
    (tiled_agrees_with_untiled 5 2 (⟨fun k => k⟩ : Mat Nat) ⟨fun _ => 0⟩ (by decide)
      (by decide)).1⟩

/-! ## The fill and the test -/

theorem forLoop_fst {σ τ : Type} (body : Nat → σ × τ → σ × τ) (g : Nat → σ → σ)
    (h : ∀ k s, (body k s).1 = g k s.1) (n : Nat) (s : σ × τ) :
    (P2P.forLoop body n s).1 = P2P.forLoop g n s.1 := by
  induction n with
  | zero => rfl
  | succ c ih =>
    simp only [P2P.forLoop]
    rw [h, ih]

theorem forLoop_fixed {σ : Type} (body : Nat → σ → σ) (n : Nat) (s : σ)
    (h : ∀ k, k < n → body k s = s) : P2P.forLoop body n s = s := by
  induction n with
  | zero => rfl
  | succ c ih =>
    simp only [P2P.forLoop]
    rw [ih (fun k hk => h k (by omega))]
    exact h c (by omega)

theorem row_index (order i j : Nat) : i * order + j = j + order * i := by
  rw [Nat.mul_comm, Nat.add_comm]

theorem fill_wrote (order : Nat) (AB : Mat ℚ × Mat ℚ) :
    Wrote (fun idx => COL_SHIFT * ((idx % order : Nat) : ℚ) + ROW_SHIFT * ((idx / order : Nat) : ℚ))
      (fun idx => idx < order * order) AB.1 (fill order AB).1 := by
  unfold fill
  rw [forLoop_fst _ (fun i A => P2P.forLoop (fun j (A : Mat ℚ) =>
      ⟨Function.update A.cell (i * order + j) (COL_SHIFT * (j : ℚ) + ROW_SHIFT * (i : ℚ))⟩)
      order A) (fun i s => forLoop_fst _ _ (fun _ _ => rfl) order s)]
  have hb : ∀ i, i < order → ∀ (P : Nat → Prop) (A : Mat ℚ),
      Wrote (fun idx => COL_SHIFT * ((idx % order : Nat) : ℚ) +
        ROW_SHIFT * ((idx / order : Nat) : ℚ)) P AB.1 A →
      Wrote (fun idx => COL_SHIFT * ((idx % order : Nat) : ℚ) +
        ROW_SHIFT * ((idx / order : Nat) : ℚ))
        (fun idx => P idx ∨ ∃ j, j < order ∧ idx = i * order + j) AB.1
        (P2P.forLoop (fun j (A : Mat ℚ) =>
          ⟨Function.update A.cell (i * order + j)
            (COL_SHIFT * (j : ℚ) + ROW_SHIFT * (i : ℚ))⟩) order A) := by
    intro i _ P A h
    refine wrote_forLoop _ AB.1 _ (fun j idx => idx = i * order + j) order
      (fun j hj P A h => wrote_update _ P AB.1 A (i * order + j) _ ?_ h) P A h
    show COL_SHIFT * (j : ℚ) + ROW_SHIFT * (i : ℚ) =
      COL_SHIFT * (((i * order + j) % order : Nat) : ℚ) +
        ROW_SHIFT * (((i * order + j) / order : Nat) : ℚ)
    rw [row_index, index_div order j i hj, index_mod order j i hj]
  have h := wrote_forLoop _ AB.1 _ (fun i idx => ∃ j, j < order ∧ idx = i * order + j) order hb
    (fun _ => False) AB.1 (wrote_start _ _)
  apply wrote_congr _ _ _ _ _ h
  intro idx
  constructor
  · rintro (hf | ⟨i, hi, j, hj, rfl⟩)
    · exact absurd hf id
    · rw [row_index]
      exact index_lt order j i hj hi
  · intro hlt
    obtain ⟨h1, h2, h3⟩ := index_split order idx hlt
    refine Or.inr ⟨idx / order, h2, idx % order, h1, ?_⟩
    rw [row_index]
    exact h3

theorem fill_cell (order : Nat) (AB : Mat ℚ × Mat ℚ) (i j : Nat) (hi : i < order)
    (hj : j < order) :
    (fill order AB).1.cell (i * order + j) = COL_SHIFT * (j : ℚ) + ROW_SHIFT * (i : ℚ) := by
  have h := (fill_wrote order AB (i * order + j)).1
    (by rw [row_index]; exact index_lt order j i hj hi)
  rw [h]
  show COL_SHIFT * (((i * order + j) % order : Nat) : ℚ) +
    ROW_SHIFT * (((i * order + j) / order : Nat) : ℚ) = _
  rw [row_index, index_div order j i hj, index_mod order j i hj]

theorem transposed_cell (order tile_size : Nat) (AB : Mat ℚ × Mat ℚ) (B : Mat ℚ)
    (hts : 1 ≤ tile_size ∨ order ≤ tile_size) (i j : Nat) (hi : i < order) (hj : j < order) :
    (transpose order tile_size (fill order AB).1 B).cell (i * order + j) =
      COL_SHIFT * (i : ℚ) + ROW_SHIFT * (j : ℚ) := by
  rw [row_index, wrote_cell order _ B _ (transpose_wrote order tile_size _ B hts) j i hj hi,
    ← row_index, fill_cell order AB j i hj hi]

theorem test_results_zero (order : Nat) (trans : Mat ℚ)
    (h : ∀ i j, i < order → j < order →
      trans.cell (i * order + j) = COL_SHIFT * (i : ℚ) + ROW_SHIFT * (j : ℚ)) :
    test_results order trans = 0 := by
  unfold test_results
  apply forLoop_fixed
  intro i hi
  apply forLoop_fixed
  intro j hj
  show (0 : ℚ) + (trans.cell (i * order + j) - (COL_SHIFT * (i : ℚ) + ROW_SHIFT * (j : ℚ))) *
    (trans.cell (i * order + j) - (COL_SHIFT * (i : ℚ) + ROW_SHIFT * (j : ℚ))) = 0
  rw [h i j hi hj]
  ring

theorem iterate_errsq (order tile_size : Nat) (AB : Mat ℚ × Mat ℚ) (B : Mat ℚ)
    (hts : 1 ≤ tile_size ∨ order ≤ tile_size) (iter : Nat) :
    (iterate order tile_size (fill order AB).1 B iter).errsq = 0 := by
  unfold iterate
  induction iter with
  | zero => rfl
  | succ c ih =>
    simp only [P2P.forLoop]
    rw [ih, test_results_zero order _ (transposed_cell order tile_size AB _ hts)]
    ring

theorem tileSize_ok (argc : Int) (arg : Nat → Int) (order : Int) :
    1 ≤ (tileSize argc arg order).toNat ∨ order.toNat ≤ (tileSize argc arg order).toNat := by
  unfold tileSize
  simp only []
  split_ifs <;> omega

theorem allocSize_fits (order : Int) (h0 : 0 ≤ order) (hfit : order * order < 2147483648) :
    allocSize order = (8 * (order * order)).toNat := by
  have hnn : 0 ≤ order * order := mul_nonneg h0 h0
  unfold allocSize
  rw [P2P.wrap32_id _ (by omega) hfit]
  omega

theorem main_validates (argc : Int) (arg : Nat → Int) (avail : Nat) (A0 B0 : Mat ℚ)
    (hargc : argc = 3 ∨ argc = 4) (hiter : 1 ≤ arg 1) (horder : 0 ≤ arg 2)
    (hfit : arg 2 * arg 2 < 2147483648) (halloc : 2 * allocSize (arg 2) ≤ avail) :
    main argc arg avail A0 B0 = Outcome.finished true := by
  have hA : malloc avail A0 (allocSize (arg 2)) = some A0 := by
    unfold malloc
    rw [if_pos (by omega)]
  have hB : malloc (avail - allocSize (arg 2)) B0 (allocSize (arg 2)) = some B0 := by
    unfold malloc
    rw [if_pos (by omega)]
  unfold main
  rw [if_neg (by omega), if_neg (by omega), if_neg (by omega)]
  simp only [hA, hB]
  rw [if_neg (by omega), iterate_errsq _ _ (A0, B0) _ (tileSize_ok argc arg (arg 2))]
  simp

/-- C20 (counterexample): for order 46341 the `int` product `order*order` wraps to
`-2147479015`, the request to `malloc` becomes `2^64 - 17179832120` bytes, which
no system provides (here `avail = 2^63-1`), and the run exits with failure at the
allocation test instead of reporting that the solution validates. -/
theorem large_order_exits :
    P2P.wrap32 (46341 * 46341) = -2147479015 ∧
    allocSize 46341 = 18446744056529719496 ∧
    main 3 (fun k => if k = 1 then 1 else 46341) 9223372036854775807
      ⟨fun _ => 0⟩ ⟨fun _ => 0⟩ = Outcome.failure := by
  have h1 : P2P.wrap32 (46341 * 46341) = -2147479015 := by decide
  have h2 : allocSize 46341 = 18446744056529719496 := by
    unfold allocSize
    rw [h1]
    decide
  refine ⟨h1, h2, ?_⟩
  unfold main
  simp only []
  rw [if_neg (by decide), if_neg (by decide), if_neg (by decide)]
  have h3 : (if (2 : Nat) = 1 then (1 : Int) else 46341) = 46341 := by decide
  simp only [h3, h2, malloc]
  decide

/-- C20 (amended): for every order with `order*order` below 2^31, with `A` filled
as `A[i*order+j] = COL_SHIFT*j + ROW_SHIFT*i`, one transposition (with any tile
size the program can reach: at least 1, or at least the order) leaves
`B[i*order+j] = COL_SHIFT*i + ROW_SHIFT*j` for all `i, j < order`, whatever `B`
held; `test_results(order, B)` is then exactly 0, so the accumulated squared
error is 0 after every iteration and below the threshold `1e-8`, and the run
reports that the solution validates on every input that passes the input tests
and for which both allocations succeed. -/
theorem transpose_validation (order tile_size : Nat) (A0 B0 : Mat ℚ)
    (hts : 1 ≤ tile_size ∨ order ≤ tile_size) (hfit : order * order < 2147483648) :
    (∀ i j, i < order → j < order →
      (fill order (A0, B0)).1.cell (i * order + j) = COL_SHIFT * (j : ℚ) + ROW_SHIFT * (i : ℚ)) ∧
    (∀ B i j, i < order → j < order →
      (transpose order tile_size (fill order (A0, B0)).1 B).cell (i * order + j) =
        COL_SHIFT * (i : ℚ) + ROW_SHIFT * (j : ℚ)) ∧
    (∀ B, test_results order (transpose order tile_size (fill order (A0, B0)).1 B) = 0) ∧
    (∀ iter, (iterate order tile_size (fill order (A0, B0)).1 (fill order (A0, B0)).2 iter).errsq
      = 0) ∧
    (∀ iter, (iterate order tile_size (fill order (A0, B0)).1 (fill order (A0, B0)).2 iter).errsq
      < 1 / 100000000) ∧
    allocSize (order : Int) = 8 * (order * order) ∧
    (∀ argc arg avail, (argc = 3 ∨ argc = 4) → 1 ≤ arg 1 → arg 2 = (order : Int) →
      2 * allocSize (order : Int) ≤ avail →
      main argc arg avail A0 B0 = Outcome.finished true) := by
  have hfit' : (order : Int) * (order : Int) < 2147483648 := by exact_mod_cast hfit
  refine ⟨fun i j hi hj => fill_cell order _ i j hi hj,
    fun B i j hi hj => transposed_cell order tile_size _ B hts i j hi hj,
    fun B => test_results_zero order _ (transposed_cell order tile_size _ B hts),
    fun iter => iterate_errsq order tile_size _ _ hts iter, fun iter => ?_, ?_,
    fun argc arg avail hargc hiter horder halloc =>
      main_validates argc arg avail A0 B0 hargc hiter (by omega) (by rw [horder]; exact hfit')
        (by rw [horder]; exact halloc)⟩
  · rw [iterate_errsq order tile_size _ _ hts iter]
    norm_num
  · rw [allocSize_fits (order : Int) (by omega) hfit']
    have : (8 * ((order : Int) * (order : Int))) = ((8 * (order * order) : Nat) : Int) := by
      push_cast; ring
    rw [this, Int.toNat_ofNat]

/-- A run of C20 on a matrix of order 5 with tiles of side 2: the test of the
transposed matrix returns 0. -/
theorem transpose_validation_witness :
    test_results 5 (transpose 5 2 (fill 5 (⟨fun _ => 0⟩, ⟨fun _ => 0⟩)).1 ⟨fun _ => 7⟩) = 0 :=
  (transpose_validation 5 2 ⟨fun _ => 0⟩ ⟨fun _ => 0⟩ (by decide) (by decide)).2.2.1
    ⟨fun _ => 7⟩

end Transpose
